import Mathlib

/-!
Verification of the relative-import path rewriting scripts of the
tetrix-game repository (fix-imports.py, fix-imports-smart.py,
fix-overcorrection.py, refactor-complete.py).

File contents are modelled as lists of characters.  The regex-substitution
pipelines of the Python scripts are embedded as left-to-right scanners over
those lists, one anchored matcher per regex pattern, mirroring the
semantics of Python's `re.sub`, `re.search` and `str.replace` on the
specific patterns the scripts use.
-/

/-- The single-quote character (written via its code point to keep the
path-literal definitions uniform). -/
def sqC : Char := Char.ofNat 39

/-- The double-quote character. -/
def dqC : Char := Char.ofNat 34

/-- Python's `\s` on ASCII input: space, tab, newline, carriage return,
vertical tab, form feed. -/
def pyWS (c : Char) : Bool :=
  c = ' ' || c = Char.ofNat 9 || c = Char.ofNat 10 || c = Char.ofNat 13 ||
  c = Char.ofNat 11 || c = Char.ofNat 12

/-- The character class `['"]` used by every pattern in the scripts. -/
def isQuote (c : Char) : Bool := c = sqC || c = dqC

/-- The string `./` as a character list. -/
def dotSlash : List Char := ['.', '/']

/-- The string `../` as a character list. -/
def dotDotSlash : List Char := ['.', '.', '/']

/-- `k` copies of `../` concatenated. -/
def ddRep : Nat → List Char
  | 0 => []
  | n + 1 => '.' :: '.' :: '/' :: ddRep n

/-- `count_levels_up` of fix-imports-smart.py splits the path on `/` and
counts the leading `..` parts; this is Python's `str.split` on one
separator. -/
def consHead (c : Char) : List (List Char) → List (List Char)
  | [] => [[c]]
  | g :: gs => (c :: g) :: gs

/-- Python `str.split(sep)` for a one-character separator. -/
def pySplit (sep : Char) : List Char → List (List Char)
  | [] => [[]]
  | c :: rest => if c = sep then [] :: pySplit sep rest else consHead c (pySplit sep rest)

/-- Count of leading `..` parts of a split list (the loop body of
`count_levels_up`). -/
def countDD : List (List Char) → Nat
  | [] => 0
  | part :: rest => if part = ['.', '.'] then 1 + countDD rest else 0

/-- `count_levels_up` from fix-imports-smart.py: how many levels up a
relative path goes. -/
def count_levels_up (p : List Char) : Nat := countDD (pySplit '/' p)

/-- `add_one_level` from fix-imports-smart.py: `./` becomes `../`; a path
starting with `../` gets one more `../` prepended; anything else is
returned unchanged. -/
def add_one_level (p : List Char) : List Char :=
  if dotSlash.isPrefixOf p then dotDotSlash ++ p.drop 2
  else if dotDotSlash.isPrefixOf p then dotDotSlash ++ p
  else p

/-- `add_one_level_to_path` from refactor-complete.py (same body as
`add_one_level`). -/
def add_one_level_to_path (p : List Char) : List Char :=
  if dotSlash.isPrefixOf p then dotDotSlash ++ p.drop 2
  else if dotDotSlash.isPrefixOf p then dotDotSlash ++ p
  else p

/-- The action of fix-overcorrection.py's substitution lambda on a matched
specifier path: the regex `(\.\./)+` greedily munches the maximal leading
run of `../` segments and the lambda writes back one segment fewer, which
on the path amounts to dropping the first `../` when there is one. -/
def remove_one_level (p : List Char) : List Char :=
  if dotDotSlash.isPrefixOf p then p.drop 3 else p

/-- `fix_import_statement` from refactor-complete.py, applied to the three
regex groups of a match: relative paths are adjusted, everything else is
reproduced verbatim (`match.group(0)`). -/
def fix_import_statement (before path after : List Char) : List Char :=
  if dotSlash.isPrefixOf path || dotDotSlash.isPrefixOf path then
    before ++ add_one_level_to_path path ++ after
  else
    before ++ path ++ after

lemma add_one_level_eq (p : List Char) : add_one_level p = add_one_level_to_path p := rfl

lemma dotSlash_isPrefixOf_append (rest : List Char) :
    dotSlash.isPrefixOf (dotSlash ++ rest) = true := by
  simp [dotSlash, List.isPrefixOf]

lemma dotDotSlash_isPrefixOf_append (rest : List Char) :
    dotDotSlash.isPrefixOf (dotDotSlash ++ rest) = true := by
  simp [dotDotSlash, List.isPrefixOf]

lemma not_dotSlash_isPrefixOf_dd (rest : List Char) :
    dotSlash.isPrefixOf (dotDotSlash ++ rest) = false := by
  simp [dotSlash, dotDotSlash, List.isPrefixOf]

lemma add_one_level_dotSlash (rest : List Char) :
    add_one_level (dotSlash ++ rest) = dotDotSlash ++ rest := by
  simp [add_one_level, dotSlash_isPrefixOf_append, dotSlash, dotDotSlash]

lemma add_one_level_dotDotSlash (rest : List Char) :
    add_one_level (dotDotSlash ++ rest) = dotDotSlash ++ (dotDotSlash ++ rest) := by
  simp [add_one_level, not_dotSlash_isPrefixOf_dd, dotDotSlash_isPrefixOf_append]

lemma add_one_level_of_not_relative (p : List Char)
    (h1 : dotSlash.isPrefixOf p = false) (h2 : dotDotSlash.isPrefixOf p = false) :
    add_one_level p = p := by
  simp [add_one_level, h1, h2]

lemma remove_one_level_dd (rest : List Char) :
    remove_one_level (dotDotSlash ++ rest) = rest := by
  simp [remove_one_level, dotDotSlash_isPrefixOf_append, dotDotSlash]

lemma remove_one_level_of_no_dd (p : List Char)
    (h : dotDotSlash.isPrefixOf p = false) : remove_one_level p = p := by
  simp [remove_one_level, h]

lemma pySplit_slash (p : List Char) :
    pySplit '/' ('/' :: p) = [] :: pySplit '/' p := by
  simp [pySplit]

lemma pySplit_dd (p : List Char) :
    pySplit '/' (dotDotSlash ++ p) = ['.', '.'] :: pySplit '/' p := by
  simp [dotDotSlash, pySplit, consHead]

lemma count_levels_up_dd (p : List Char) :
    count_levels_up (dotDotSlash ++ p) = 1 + count_levels_up p := by
  simp [count_levels_up, pySplit_dd, countDD]

lemma count_levels_up_dotSlash (p : List Char) :
    count_levels_up (dotSlash ++ p) = 0 := by
  simp [count_levels_up, dotSlash, pySplit, consHead, countDD]

/-!  ## Generic left-to-right substitution scanner

`gsub m s` mirrors Python's `re.sub(pattern, repl, s)` for an anchored
matcher `m`: at each position the matcher is tried; on success it yields
the replacement text and the remainder of the input after the match, and
scanning resumes there; on failure the character is copied and scanning
advances by one.  Every matcher used here consumes at least one character,
so fuel `s.length` always suffices. -/

/-- An anchored matcher: given the input at the current position, either
fail or return (replacement text, remainder after the matched text). -/
abbrev Matcher := List Char → Option (List Char × List Char)

def gsubFuel (m : Matcher) : Nat → List Char → List Char
  | _, [] => []
  | 0, c :: rest => c :: rest
  | n + 1, c :: rest =>
    match m (c :: rest) with
    | some (r, t) => r ++ gsubFuel m n t
    | none => c :: gsubFuel m n rest

/-- One `re.sub` pass with matcher `m`. -/
def gsub (m : Matcher) (s : List Char) : List Char := gsubFuel m s.length s

/-- A matcher consumes input: the remainder after a match is strictly
shorter than the input. -/
def Consuming (m : Matcher) : Prop :=
  ∀ s r t, m s = some (r, t) → t.length < s.length

lemma gsubFuel_congr {m : Matcher} (hm : Consuming m) :
    ∀ n n' s, s.length ≤ n → s.length ≤ n' → gsubFuel m n s = gsubFuel m n' s := by
  intro n
  induction n with
  | zero =>
    intro n' s hn _
    have : s = [] := List.length_eq_zero.mp (Nat.le_zero.mp hn)
    subst this
    cases n' <;> rfl
  | succ n ih =>
    intro n' s hn hn'
    cases s with
    | nil => cases n' <;> rfl
    | cons c rest =>
      cases n' with
      | zero => exact absurd hn' (by simp)
      | succ n' =>
        simp only [gsubFuel]
        cases hmv : m (c :: rest) with
        | some rt =>
          obtain ⟨r, t⟩ := rt
          have ht := hm _ _ _ hmv
          simp only []
          have h1 : t.length ≤ n := by
            have := Nat.lt_of_lt_of_le ht hn; omega
          have h2 : t.length ≤ n' := by
            have := Nat.lt_of_lt_of_le ht hn'; omega
          rw [ih n' t h1 h2]
        | none =>
          simp only []
          have h1 : rest.length ≤ n := by simp at hn; omega
          have h2 : rest.length ≤ n' := by simp at hn'; omega
          rw [ih n' rest h1 h2]

lemma gsub_nil (m : Matcher) : gsub m [] = [] := rfl

lemma gsub_cons_none {m : Matcher} {c : Char} {rest : List Char}
    (h : m (c :: rest) = none) : gsub m (c :: rest) = c :: gsub m rest := by
  simp only [gsub, List.length_cons, gsubFuel, h]

lemma gsub_cons_some {m : Matcher} (hm : Consuming m) {c : Char} {rest r t : List Char}
    (h : m (c :: rest) = some (r, t)) : gsub m (c :: rest) = r ++ gsub m t := by
  have ht := hm _ _ _ h
  simp only [gsub, List.length_cons, gsubFuel, h]
  congr 1
  exact gsubFuel_congr hm _ _ _ (by simp at ht; omega) le_rfl

/-- Scanning skips text none of whose characters can start a match. -/
lemma gsub_append_skip {m : Matcher} {pre rest : List Char}
    (h : ∀ c ∈ pre, ∀ t, m (c :: t) = none) :
    gsub m (pre ++ rest) = pre ++ gsub m rest := by
  induction pre with
  | nil => simp
  | cons c pre ih =>
    have h0 : m (c :: (pre ++ rest)) = none := h c (by simp) _
    rw [List.cons_append, gsub_cons_none h0, ih (fun d hd t => h d (by simp [hd]) t),
      List.cons_append]

/-- When no character of the input can start a match, the pass is the
identity. -/
lemma gsub_id_of_no_head {m : Matcher} {s : List Char}
    (h : ∀ c ∈ s, ∀ t, m (c :: t) = none) : gsub m s = s := by
  have := @gsub_append_skip m s [] h
  simpa [gsub_nil] using this

/-- If every successful match is replaced by its own matched text, the
pass is the identity. -/
lemma gsub_id_of_self_repl {m : Matcher} (hm : Consuming m)
    (hid : ∀ s r t, m s = some (r, t) → s = r ++ t) : ∀ s, gsub m s = s := by
  have H : ∀ n s, s.length ≤ n → gsub m s = s := by
    intro n
    induction n with
    | zero =>
      intro s hs
      have : s = [] := List.length_eq_zero.mp (Nat.le_zero.mp hs)
      simp [this, gsub_nil]
    | succ n ih =>
      intro s hs
      cases s with
      | nil => rfl
      | cons c rest =>
        cases hmv : m (c :: rest) with
        | some rt =>
          obtain ⟨r, t⟩ := rt
          have ht := hm _ _ _ hmv
          rw [gsub_cons_some hm hmv, ih t (by simp at hs ht ⊢; omega)]
          exact (hid _ _ _ hmv).symm
        | none =>
          rw [gsub_cons_none hmv, ih rest (by simp at hs ⊢; omega)]
  exact fun s => H s.length s le_rfl

/-- A matcher none of whose replacements is shorter than its matched
text. -/
def NonShrinking (m : Matcher) : Prop :=
  ∀ s r t, m s = some (r, t) → s.length ≤ r.length + t.length

/-- A matcher whose replacements are strictly longer than their matched
text (all four substitutions of fix-imports.py insert characters). -/
def Growing (m : Matcher) : Prop :=
  ∀ s r t, m s = some (r, t) → s.length < r.length + t.length

/-- Whether the pattern matches anywhere in the input. -/
def hasMatchB (m : Matcher) (s : List Char) : Bool :=
  s.tails.any fun t => (m t).isSome

lemma hasMatchB_cons (m : Matcher) (c : Char) (rest : List Char) :
    hasMatchB m (c :: rest) = ((m (c :: rest)).isSome || hasMatchB m rest) := by
  simp [hasMatchB]

lemma gsub_length_ge {m : Matcher} (hm : Consuming m) (hg : NonShrinking m) :
    ∀ s : List Char, s.length ≤ (gsub m s).length := by
  have H : ∀ n s, s.length ≤ n → s.length ≤ (gsub m s).length := by
    intro n
    induction n with
    | zero => intro s hs; simp [List.length_eq_zero.mp (Nat.le_zero.mp hs), gsub_nil]
    | succ n ih =>
      intro s hs
      cases s with
      | nil => simp [gsub_nil]
      | cons c rest =>
        cases hmv : m (c :: rest) with
        | some rt =>
          obtain ⟨r, t⟩ := rt
          have ht := hm _ _ _ hmv
          have hgr := hg _ _ _ hmv
          have := ih t (by simp at hs ht ⊢; omega)
          rw [gsub_cons_some hm hmv]
          simp only [List.length_append] at *
          omega
        | none =>
          have := ih rest (by simp at hs ⊢; omega)
          rw [gsub_cons_none hmv]
          simp only [List.length_cons] at *
          omega
  exact fun s => H s.length s le_rfl

lemma gsub_length_gt_of_hasMatch {m : Matcher} (hm : Consuming m) (hg : Growing m) :
    ∀ s : List Char, hasMatchB m s = true → s.length < (gsub m s).length := by
  have H : ∀ n s, s.length ≤ n → hasMatchB m s = true → s.length < (gsub m s).length := by
    intro n
    induction n with
    | zero =>
      intro s hs hmt
      have hs0 : s = [] := List.length_eq_zero.mp (Nat.le_zero.mp hs)
      subst hs0
      exfalso
      simp only [hasMatchB, List.tails, List.any_cons, List.any_nil, Bool.or_false] at hmt
      cases hmv : m [] with
      | none => rw [hmv] at hmt; simp at hmt
      | some rt =>
        have := hm _ _ _ (show m [] = some (rt.1, rt.2) by rw [hmv])
        simp at this
    | succ n ih =>
      intro s hs hmt
      cases s with
      | nil =>
        exfalso
        simp only [hasMatchB, List.tails, List.any_cons, List.any_nil, Bool.or_false] at hmt
        cases hmv : m [] with
        | none => rw [hmv] at hmt; simp at hmt
        | some rt =>
          have := hm _ _ _ (show m [] = some (rt.1, rt.2) by rw [hmv])
          simp at this
      | cons c rest =>
        cases hmv : m (c :: rest) with
        | some rt =>
          obtain ⟨r, t⟩ := rt
          have ht := hm _ _ _ hmv
          have hgr := hg _ _ _ hmv
          have hge := gsub_length_ge hm (fun s r t h => Nat.le_of_lt (hg s r t h)) t
          rw [gsub_cons_some hm hmv]
          simp only [List.length_append, List.length_cons] at *
          omega
        | none =>
          rw [hasMatchB_cons, hmv] at hmt
          simp at hmt
          have := ih rest (by simp at hs ⊢; omega) hmt
          rw [gsub_cons_none hmv]
          simp only [List.length_cons]
          omega
  exact fun s => H s.length s le_rfl

lemma gsub_id_of_not_hasMatch {m : Matcher} {s : List Char}
    (h : hasMatchB m s = false) : gsub m s = s := by
  induction s with
  | nil => rfl
  | cons c rest ih =>
    rw [hasMatchB_cons] at h
    simp only [Bool.or_eq_false_iff] at h
    have h0 : m (c :: rest) = none := by
      cases hmv : m (c :: rest) with
      | some rt => rw [hmv] at h; simp at h
      | none => rfl
    rw [gsub_cons_none h0, ih h.2]

/-!  ## Anchored matchers for the scripts' regex patterns -/

/-- The `\s+['"]` tail of the `from` patterns: one or more whitespace
characters (greedy; a quote is not whitespace, so no backtracking
arises), then one quote.  `lit` is the literal text already matched;
returns (group-1 text, remainder after the quote). -/
def matchWsQuote (lit : List Char) (rr : List Char) : Option (List Char × List Char) :=
  match rr.dropWhile pyWS with
  | q :: r2 =>
    if rr.takeWhile pyWS = [] ∨ isQuote q = false then none
    else some (lit ++ rr.takeWhile pyWS ++ [q], r2)
  | [] => none

/-- Anchored match of `from\s+['"]` (the shared prefix of every `from`
pattern). Returns (group text, remainder after the quote). -/
def matchLitFrom : List Char → Option (List Char × List Char)
  | c1 :: c2 :: c3 :: c4 :: r =>
    if c1 = 'f' ∧ c2 = 'r' ∧ c3 = 'o' ∧ c4 = 'm' then matchWsQuote [c1, c2, c3, c4] r
    else none
  | _ => none

/-- Anchored match of `import\(['"]`: the literal `import(` followed by
one quote. -/
def matchLitImp : List Char → Option (List Char × List Char)
  | c1 :: c2 :: c3 :: c4 :: c5 :: c6 :: c7 :: q :: r =>
    if c1 = 'i' ∧ c2 = 'm' ∧ c3 = 'p' ∧ c4 = 'o' ∧ c5 = 'r' ∧ c6 = 't' ∧ c7 = '(' ∧
        isQuote q = true then
      some ([c1, c2, c3, c4, c5, c6, c7, q], r)
    else none
  | _ => none

/-- Anchored match of `([./][^'"]+)(['"])` (the path and closing-quote
groups of fix-imports-smart.py's and refactor-complete.py's patterns):
one `.` or `/`, then a maximal nonempty run of non-quote characters, then
one quote.  Returns (path group, closing group, remainder). -/
def matchSpecBody : List Char → Option (List Char × List Char × List Char)
  | c0 :: r2 =>
    if c0 = '.' ∨ c0 = '/' then
      match r2.dropWhile (fun c => !(isQuote c)) with
      | q2 :: rest =>
        if r2.takeWhile (fun c => !(isQuote c)) = [] then none
        else some (c0 :: r2.takeWhile (fun c => !(isQuote c)), [q2], rest)
      | [] => none
    else none
  | [] => none

/-- Anchored match of `([./][^'"]+)(['"]\))`: as `matchSpecBody` but the
closing group is a quote followed by `)`. -/
def matchSpecBodyParen : List Char → Option (List Char × List Char × List Char)
  | c0 :: r2 =>
    if c0 = '.' ∨ c0 = '/' then
      match r2.dropWhile (fun c => !(isQuote c)) with
      | q2 :: c9 :: rest =>
        if r2.takeWhile (fun c => !(isQuote c)) = [] ∨ ¬(c9 = ')') then none
        else some (c0 :: r2.takeWhile (fun c => !(isQuote c)), [q2, c9], rest)
      | _ => none
    else none
  | [] => none

/-- Greedy match of `(\.\./)+`: the maximal leading run of `../`
segments. Returns (run length, remainder). -/
def munchDD : List Char → Nat × List Char
  | '.' :: '.' :: '/' :: rest => ((munchDD rest).1 + 1, (munchDD rest).2)
  | p => (0, p)

/-- Matcher of refactor-complete.py's first substitution
`(from\s+['"])([./][^'"]+)(['"])` with `fix_import_statement` as the
replacement function. -/
def mFromSpec : Matcher := fun s =>
  match matchLitFrom s with
  | some (g1, r) =>
    match matchSpecBody r with
    | some (p, g3, rest) => some (fix_import_statement g1 p g3, rest)
    | none => none
  | none => none

/-- Matcher of refactor-complete.py's second substitution
`(import\(['"])([./][^'"]+)(['"]\))` with `fix_import_statement`. -/
def mImpSpec : Matcher := fun s =>
  match matchLitImp s with
  | some (g1, r) =>
    match matchSpecBodyParen r with
    | some (p, g3, rest) => some (fix_import_statement g1 p g3, rest)
    | none => none
  | none => none

/-- Matcher of fix-imports.py's first substitution
`(from\s+['"])(\.\./)` replaced by `\1../\2`. -/
def mFixF1 : Matcher := fun s =>
  match matchLitFrom s with
  | some (g1, r) =>
    if dotDotSlash.isPrefixOf r then some (g1 ++ dotDotSlash ++ dotDotSlash, r.drop 3)
    else none
  | none => none

/-- Matcher of fix-imports.py's second substitution
`(from\s+['"])(\./)([^'"]+['"])` replaced by `\1../\3`. -/
def mFixF2 : Matcher := fun s =>
  match matchLitFrom s with
  | some (g1, r) =>
    if dotSlash.isPrefixOf r then
      match (r.drop 2).dropWhile (fun c => !(isQuote c)) with
      | q :: rest =>
        if (r.drop 2).takeWhile (fun c => !(isQuote c)) = [] then none
        else some (g1 ++ dotDotSlash ++ (r.drop 2).takeWhile (fun c => !(isQuote c)) ++ [q], rest)
      | [] => none
    else none
  | none => none

/-- Matcher of fix-imports.py's third substitution
`(import\(['"])(\.\./)` replaced by `\1../\2`. -/
def mFixI1 : Matcher := fun s =>
  match matchLitImp s with
  | some (g1, r) =>
    if dotDotSlash.isPrefixOf r then some (g1 ++ dotDotSlash ++ dotDotSlash, r.drop 3)
    else none
  | none => none

/-- Matcher of fix-imports.py's fourth substitution
`(import\(['"])(\./)([^'"]+['"])` replaced by `\1../\3`. -/
def mFixI2 : Matcher := fun s =>
  match matchLitImp s with
  | some (g1, r) =>
    if dotSlash.isPrefixOf r then
      match (r.drop 2).dropWhile (fun c => !(isQuote c)) with
      | q :: rest =>
        if (r.drop 2).takeWhile (fun c => !(isQuote c)) = [] then none
        else some (g1 ++ dotDotSlash ++ (r.drop 2).takeWhile (fun c => !(isQuote c)) ++ [q], rest)
      | [] => none
    else none
  | none => none

/-- Matcher of fix-overcorrection.py's first substitution
`(from\s+['"])(\.\./)+` whose lambda writes back the group-1 text plus
one fewer `../` than the matched text contained. -/
def mOverF : Matcher := fun s =>
  match matchLitFrom s with
  | some (g1, r) =>
    match munchDD r with
    | (0, _) => none
    | (k + 1, rest) => some (g1 ++ ddRep k, rest)
  | none => none

/-- Matcher of fix-overcorrection.py's second substitution
`(import\(['"])(\.\./)+`. -/
def mOverI : Matcher := fun s =>
  match matchLitImp s with
  | some (g1, r) =>
    match munchDD r with
    | (0, _) => none
    | (k + 1, rest) => some (g1 ++ ddRep k, rest)
  | none => none

/-- Matcher underlying Python's `str.replace(old, new)` for nonempty
`old`: non-overlapping occurrences, scanned left to right. -/
def mRepl (old new : List Char) : Matcher := fun s =>
  if old ≠ [] ∧ old.isPrefixOf s then some (new, s.drop old.length) else none

/-- Python `line.replace(old, new)` for nonempty `old`. -/
def pyReplace (s old new : List Char) : List Char := gsub (mRepl old new) s

/-!  ## The rewriters of the four scripts -/

/-- `fix_imports_in_content` from refactor-complete.py: the `from`
substitution followed by the `import(` substitution. -/
def fix_imports_in_content (s : List Char) : List Char :=
  gsub mImpSpec (gsub mFromSpec s)

/-- The content transformation of `fix_imports_in_file` from
fix-imports.py: its four `re.sub` passes in source order. -/
def fix_imports_rewrite (s : List Char) : List Char :=
  gsub mFixI2 (gsub mFixI1 (gsub mFixF2 (gsub mFixF1 s)))

/-- The `changed` result of fix-imports.py's `fix_imports_in_file`:
true iff the content differs after the four passes. -/
def fix_imports_changed (s : List Char) : Bool :=
  decide (fix_imports_rewrite s ≠ s)

/-- Whether fix-imports.py writes the file back: exactly when `changed`
(the code guards the write with `if content != original_content`). -/
def fix_imports_writes (s : List Char) : Bool := fix_imports_changed s

/-- The content transformation of `fix_overcorrection_in_file` from
fix-overcorrection.py: its two `re.sub` passes in source order. -/
def fix_overcorrection_rewrite (s : List Char) : List Char :=
  gsub mOverI (gsub mOverF s)

/-- Python `re.search` for the smart script's pattern 1: the first
position where the full `from`-specifier pattern matches, returning the
three groups. -/
def searchFromSpec : List Char → Option (List Char × List Char × List Char)
  | [] => none
  | c :: rest =>
    match matchLitFrom (c :: rest) with
    | some (g1, r) =>
      match matchSpecBody r with
      | some (p, g3, _) => some (g1, p, g3)
      | none => searchFromSpec rest
    | none => searchFromSpec rest

/-- Python `re.search` for the smart script's pattern 2. -/
def searchImpSpec : List Char → Option (List Char × List Char × List Char)
  | [] => none
  | c :: rest =>
    match matchLitImp (c :: rest) with
    | some (g1, r) =>
      match matchSpecBodyParen r with
      | some (p, g3, _) => some (g1, p, g3)
      | none => searchImpSpec rest
    | none => searchImpSpec rest

/-- The per-line body of `fix_imports_in_file` from fix-imports-smart.py:
search once for each pattern and `str.replace` the matched text (all of
its occurrences) with the adjusted text. -/
def smart_fix_line (line : List Char) : List Char :=
  let l1 :=
    match searchFromSpec line with
    | some (g1, p, g3) => pyReplace line (g1 ++ p ++ g3) (g1 ++ add_one_level p ++ g3)
    | none => line
  match searchImpSpec l1 with
  | some (g1, p, g3) => pyReplace l1 (g1 ++ p ++ g3) (g1 ++ add_one_level p ++ g3)
  | none => l1

/-- Python `f.readlines()`: split after each newline, keeping the
newline characters. -/
def pyReadLines : List Char → List (List Char)
  | [] => []
  | c :: rest =>
    if c = Char.ofNat 10 then [c] :: pyReadLines rest
    else match pyReadLines rest with
      | [] => [[c]]
      | l :: ls => (c :: l) :: ls

/-- The content transformation of fix-imports-smart.py's
`fix_imports_in_file`: each line rewritten independently. -/
def smart_fix_content (s : List Char) : List Char :=
  ((pyReadLines s).map smart_fix_line).flatten

/-!  ## Concrete example paths and lines used by counterexamples -/

/-- The path `./utils`. -/
def pUtils : List Char := ['.', '/', 'u', 't', 'i', 'l', 's']

/-- The path `./../x`: in scope (it begins with `./`), with a `../`
segment right after the `./` prefix. -/
def pDotUpX : List Char := ['.', '/', '.', '.', '/', 'x']

/-- C1.  The claimed round trip `remove_one_level (add_one_level p) = p`
fails at the in-scope path `./utils`: the `+1` adjustment turns it into
`../utils`, and the leading-`../`-run reduction of
fix-overcorrection.py then yields the bare `utils`, not `./utils`. -/
theorem c1_round_trip_cex :
    remove_one_level (add_one_level pUtils) = ['u', 't', 'i', 'l', 's'] ∧
    remove_one_level (add_one_level pUtils) ≠ pUtils := by
  constructor
  · decide
  · decide

/-- C1 (amended).  The round trip restores exactly the paths with at
least one leading `../` segment; on a `./`-prefixed path it instead
strips the `./` prefix (the `-1` repair removes a whole leading `../`
segment and the `../` that replaced the original `./` is such a
segment). -/
theorem c1_round_trip_amended (rest : List Char) :
    remove_one_level (add_one_level (dotDotSlash ++ rest)) = dotDotSlash ++ rest ∧
    remove_one_level (add_one_level (dotSlash ++ rest)) = rest := by
  constructor
  · rw [add_one_level_dotDotSlash, remove_one_level_dd]
  · rw [add_one_level_dotSlash, remove_one_level_dd]

/-- C3.  `add_one_level` (and refactor-complete.py's
`add_one_level_to_path`) turns `./rest` into `../rest`, prepends `../`
to a `../`-prefixed path, and leaves any other path unchanged. -/
theorem c3_add_one_level_cases :
    (∀ rest : List Char,
      add_one_level (dotSlash ++ rest) = dotDotSlash ++ rest ∧
      add_one_level_to_path (dotSlash ++ rest) = dotDotSlash ++ rest) ∧
    (∀ rest : List Char,
      add_one_level (dotDotSlash ++ rest) = dotDotSlash ++ (dotDotSlash ++ rest) ∧
      add_one_level_to_path (dotDotSlash ++ rest) = dotDotSlash ++ (dotDotSlash ++ rest)) ∧
    (∀ p : List Char, dotSlash.isPrefixOf p = false → dotDotSlash.isPrefixOf p = false →
      add_one_level p = p ∧ add_one_level_to_path p = p) := by
  refine ⟨fun rest => ⟨?_, ?_⟩, fun rest => ⟨?_, ?_⟩, fun p h1 h2 => ⟨?_, ?_⟩⟩
  · exact add_one_level_dotSlash rest
  · rw [← add_one_level_eq]; exact add_one_level_dotSlash rest
  · exact add_one_level_dotDotSlash rest
  · rw [← add_one_level_eq]; exact add_one_level_dotDotSlash rest
  · exact add_one_level_of_not_relative p h1 h2
  · rw [← add_one_level_eq]; exact add_one_level_of_not_relative p h1 h2

/-- Witness for C3: the three cases at the concrete paths `./u`, `../u`
and `react`. -/
theorem c3_add_one_level_cases_witness :
    add_one_level (dotSlash ++ ['u']) = dotDotSlash ++ ['u'] ∧
    add_one_level (dotDotSlash ++ ['u']) = dotDotSlash ++ (dotDotSlash ++ ['u']) ∧
    add_one_level ['r', 'e', 'a', 'c', 't'] = ['r', 'e', 'a', 'c', 't'] :=
  ⟨(c3_add_one_level_cases.1 ['u']).1,
   (c3_add_one_level_cases.2.1 ['u']).1,
   (c3_add_one_level_cases.2.2 ['r', 'e', 'a', 'c', 't'] (by decide) (by decide)).1⟩

/-- C6.  The claimed depth increment fails at the in-scope path
`./../x`: its Path Depth is 0 (the leading segment is `.`), but the
`+1` adjustment produces `../../x` of Path Depth 2. -/
theorem c6_depth_cex :
    count_levels_up pDotUpX = 0 ∧
    count_levels_up (add_one_level pDotUpX) = 2 ∧
    count_levels_up (add_one_level pDotUpX) ≠ count_levels_up pDotUpX + 1 := by
  refine ⟨by decide, by decide, by decide⟩

/-- C6 (amended).  For `../`-prefixed paths the `+1` adjustment raises
the Path Depth by exactly one; for `./`-prefixed paths the result's
depth is `1 +` the depth of the remainder after `./` (the original's
depth being 0), so the increment is exactly one precisely when that
remainder contributes no further leading `../` segments. -/
theorem c6_depth_amended :
    (∀ rest : List Char,
      count_levels_up (add_one_level (dotDotSlash ++ rest)) =
        count_levels_up (dotDotSlash ++ rest) + 1) ∧
    (∀ rest : List Char,
      count_levels_up (add_one_level (dotSlash ++ rest)) = 1 + count_levels_up rest ∧
      count_levels_up (dotSlash ++ rest) = 0) ∧
    (∀ rest : List Char, count_levels_up rest = 0 →
      count_levels_up (add_one_level (dotSlash ++ rest)) =
        count_levels_up (dotSlash ++ rest) + 1) := by
  refine ⟨fun rest => ?_, fun rest => ⟨?_, ?_⟩, fun rest h => ?_⟩
  · rw [add_one_level_dotDotSlash, count_levels_up_dd, count_levels_up_dd]
    omega
  · rw [add_one_level_dotSlash, count_levels_up_dd]
  · exact count_levels_up_dotSlash rest
  · rw [add_one_level_dotSlash, count_levels_up_dd, h, count_levels_up_dotSlash]

/-- Witness for C6 (amended): the conditional case at `./x`, whose
remainder `x` has depth 0. -/
theorem c6_depth_amended_witness :
    count_levels_up ['x'] = 0 ∧
    count_levels_up (add_one_level (dotSlash ++ ['x'])) =
      count_levels_up (dotSlash ++ ['x']) + 1 :=
  ⟨by decide, c6_depth_amended.2.2 ['x'] (by decide)⟩

/-- C10.  On every in-scope path the `+1` adjustment strictly changes
the path, and — since its result is again in scope — a second
application strictly changes it again (the double-adjustment hazard
fix-overcorrection.py exists to repair). -/
theorem c10_add_one_level_strict (rest : List Char) :
    add_one_level (dotSlash ++ rest) ≠ dotSlash ++ rest ∧
    add_one_level (dotDotSlash ++ rest) ≠ dotDotSlash ++ rest ∧
    add_one_level (add_one_level (dotSlash ++ rest)) ≠ add_one_level (dotSlash ++ rest) ∧
    add_one_level (add_one_level (dotDotSlash ++ rest)) ≠ add_one_level (dotDotSlash ++ rest) := by
  refine ⟨?_, ?_, ?_, ?_⟩
  · rw [add_one_level_dotSlash]
    intro h
    have := congrArg List.length h
    simp [dotSlash, dotDotSlash] at this
  · rw [add_one_level_dotDotSlash]
    intro h
    have := congrArg List.length h
    simp [dotDotSlash] at this
    omega
  · rw [add_one_level_dotSlash, add_one_level_dotDotSlash]
    intro h
    have := congrArg List.length h
    simp [dotDotSlash] at this
    omega
  · rw [add_one_level_dotDotSlash, add_one_level_dotDotSlash]
    intro h
    have := congrArg List.length h
    simp [dotDotSlash] at this
    omega
/-- The line `from './a'; from './b'` (two static specifiers). -/
def lineTwoSpecs : List Char :=
  ['f', 'r', 'o', 'm', ' ', sqC, '.', '/', 'a', sqC, ';', ' ', 'f', 'r', 'o', 'm', ' ', sqC, '.', '/', 'b', sqC]

/-- What fix-imports-smart.py makes of `lineTwoSpecs`: only the first specifier adjusted. -/
def lineTwoSpecsSmart : List Char :=
  ['f', 'r', 'o', 'm', ' ', sqC, '.', '.', '/', 'a', sqC, ';', ' ', 'f', 'r', 'o', 'm', ' ', sqC, '.', '/', 'b', sqC]

/-- Both specifiers of `lineTwoSpecs` adjusted. -/
def lineTwoSpecsBoth : List Char :=
  ['f', 'r', 'o', 'm', ' ', sqC, '.', '.', '/', 'a', sqC, ';', ' ', 'f', 'r', 'o', 'm', ' ', sqC, '.', '.', '/', 'b', sqC]

/-- A line whose trailing comment repeats the text of its one specifier. -/
def lineDupSpec : List Char :=
  ['f', 'r', 'o', 'm', ' ', sqC, '.', '/', 'a', sqC, ' ', '/', '/', ' ', 'f', 'r', 'o', 'm', ' ', sqC, '.', '/', 'a', sqC]

/-- fix-imports-smart.py's output on `lineDupSpec`: the comment is rewritten too. -/
def lineDupSpecOut : List Char :=
  ['f', 'r', 'o', 'm', ' ', sqC, '.', '.', '/', 'a', sqC, ' ', '/', '/', ' ', 'f', 'r', 'o', 'm', ' ', sqC, '.', '.', '/', 'a', sqC]

/-- C2.  On a line holding two static specifiers, fix-imports-smart.py
adjusts only the first one: its `re.search` finds the first match of the
pattern and `str.replace` rewrites just that text; `./b` is left as is.
fix-imports.py and refactor-complete.py (via `re.sub`) adjust both. -/
theorem c2_smart_first_match_only :
    smart_fix_line lineTwoSpecs = lineTwoSpecsSmart ∧
    fix_imports_rewrite lineTwoSpecs = lineTwoSpecsBoth ∧
    fix_imports_in_content lineTwoSpecs = lineTwoSpecsBoth ∧
    lineTwoSpecsSmart ≠ lineTwoSpecsBoth := by
  refine ⟨by decide, by decide, by decide, by decide⟩

/-- C4.  fix-imports-smart.py's matcher matches only the first specifier
of `lineDupSpec` (as `searchFromSpec` shows), yet `str.replace` also
rewrites the identical text inside the trailing comment, so bytes
outside the matched specifier change. -/
theorem c4_smart_replace_all_cex :
    searchFromSpec lineDupSpec =
      some (['f', 'r', 'o', 'm', ' ', sqC], ['.', '/', 'a'], [sqC]) ∧
    smart_fix_line lineDupSpec = lineDupSpecOut := by
  refine ⟨by decide, by decide⟩

/-!  ## Characterizations of the matchers -/

lemma pyWS_space : pyWS ' ' = true := by decide

lemma pyWS_sqC : pyWS sqC = false := by decide

lemma isQuote_sqC : isQuote sqC = true := by decide

lemma sqC_ne_f : sqC ≠ 'f' := by decide

/-- The group-1 text `from '` common to the canonical static specifiers
used below. -/
def fromQ : List Char := ['f', 'r', 'o', 'm', ' ', sqC]

/-- The group-1 text `import('` of the canonical dynamic specifiers. -/
def impQ : List Char := ['i', 'm', 'p', 'o', 'r', 't', '(', sqC]

/-- The canonical static specifier `from '<p>'`. -/
def fromSpec (p : List Char) : List Char := fromQ ++ p ++ [sqC]

/-- The canonical dynamic specifier `import('<p>')`. -/
def impSpec (p : List Char) : List Char := impQ ++ p ++ [sqC, ')']

lemma takeWhile_append_all {p : Char → Bool} {xs ys : List Char}
    (h : ∀ c ∈ xs, p c = true) :
    (xs ++ ys).takeWhile p = xs ++ ys.takeWhile p := by
  induction xs with
  | nil => simp
  | cons c xs ih =>
    have hc := h c (by simp)
    simp [List.takeWhile_cons, hc, ih (fun d hd => h d (by simp [hd]))]

lemma dropWhile_append_all {p : Char → Bool} {xs ys : List Char}
    (h : ∀ c ∈ xs, p c = true) :
    (xs ++ ys).dropWhile p = ys.dropWhile p := by
  induction xs with
  | nil => simp
  | cons c xs ih =>
    have hc := h c (by simp)
    simp [List.dropWhile_cons, hc, ih (fun d hd => h d (by simp [hd]))]

/-- Shape of a successful `\s+['"]` tail match. -/
lemma matchWsQuote_some {lit rr g r : List Char} (h : matchWsQuote lit rr = some (g, r)) :
    ∃ ws q, rr = ws ++ q :: r ∧ g = lit ++ ws ++ [q] ∧ ws ≠ [] ∧
      (∀ c ∈ ws, pyWS c = true) ∧ isQuote q = true := by
  unfold matchWsQuote at h
  split at h
  · rename_i q r2 hd
    split at h
    · exact absurd h (by simp)
    · rename_i hcond
      push_neg at hcond
      simp only [Option.some.injEq, Prod.mk.injEq] at h
      obtain ⟨hg, hr⟩ := h
      refine ⟨rr.takeWhile pyWS, q, ?_, ?_, hcond.1, ?_, ?_⟩
      · have hsplit : rr.takeWhile pyWS ++ rr.dropWhile pyWS = rr :=
          List.takeWhile_append_dropWhile pyWS rr
        rw [hd] at hsplit
        subst hr
        exact hsplit.symm
      · rw [← hg]
      · exact fun c hc => List.mem_takeWhile_imp hc
      · cases hq : isQuote q with
        | true => rfl
        | false => exact absurd hq hcond.2
  · exact absurd h (by simp)

/-- Shape of a successful `from\s+['"]` match. -/
lemma matchLitFrom_some_shape {s g r : List Char} (h : matchLitFrom s = some (g, r)) :
    ∃ ws q, s = ['f', 'r', 'o', 'm'] ++ ws ++ q :: r ∧
      g = ['f', 'r', 'o', 'm'] ++ ws ++ [q] ∧
      ws ≠ [] ∧ (∀ c ∈ ws, pyWS c = true) ∧ isQuote q = true := by
  rcases s with _ | ⟨c1, _ | ⟨c2, _ | ⟨c3, _ | ⟨c4, rr⟩⟩⟩⟩
  · simp [matchLitFrom] at h
  · simp [matchLitFrom] at h
  · simp [matchLitFrom] at h
  · simp [matchLitFrom] at h
  · have heq : matchLitFrom (c1 :: c2 :: c3 :: c4 :: rr) =
      if c1 = 'f' ∧ c2 = 'r' ∧ c3 = 'o' ∧ c4 = 'm' then matchWsQuote [c1, c2, c3, c4] rr
      else none := rfl
    rw [heq] at h
    by_cases hc : c1 = 'f' ∧ c2 = 'r' ∧ c3 = 'o' ∧ c4 = 'm'
    · rw [if_pos hc] at h
      obtain ⟨h1, h2, h3, h4⟩ := hc
      subst h1; subst h2; subst h3; subst h4
      obtain ⟨ws, q, hrr, hg, hwne, hwall, hq⟩ := matchWsQuote_some h
      exact ⟨ws, q, by simp [hrr], by simp [hg], hwne, hwall, hq⟩
    · rw [if_neg hc] at h
      exact absurd h (by simp)

/-- Shape of a successful `import\(['"]` match. -/
lemma matchLitImp_some_shape {s g r : List Char} (h : matchLitImp s = some (g, r)) :
    ∃ q, s = ['i', 'm', 'p', 'o', 'r', 't', '('] ++ q :: r ∧
      g = ['i', 'm', 'p', 'o', 'r', 't', '(', q] ∧ isQuote q = true := by
  rcases s with _ | ⟨c1, _ | ⟨c2, _ | ⟨c3, _ | ⟨c4, _ | ⟨c5, _ | ⟨c6, _ | ⟨c7, _ | ⟨q, rr⟩⟩⟩⟩⟩⟩⟩⟩
  · simp [matchLitImp] at h
  · simp [matchLitImp] at h
  · simp [matchLitImp] at h
  · simp [matchLitImp] at h
  · simp [matchLitImp] at h
  · simp [matchLitImp] at h
  · simp [matchLitImp] at h
  · simp [matchLitImp] at h
  · have heq : matchLitImp (c1 :: c2 :: c3 :: c4 :: c5 :: c6 :: c7 :: q :: rr) =
      if c1 = 'i' ∧ c2 = 'm' ∧ c3 = 'p' ∧ c4 = 'o' ∧ c5 = 'r' ∧ c6 = 't' ∧ c7 = '(' ∧
          isQuote q = true then
        some ([c1, c2, c3, c4, c5, c6, c7, q], rr)
      else none := rfl
    rw [heq] at h
    by_cases hc : c1 = 'i' ∧ c2 = 'm' ∧ c3 = 'p' ∧ c4 = 'o' ∧ c5 = 'r' ∧ c6 = 't' ∧ c7 = '(' ∧
        isQuote q = true
    · rw [if_pos hc] at h
      obtain ⟨h1, h2, h3, h4, h5, h6, h7, hq⟩ := hc
      subst h1; subst h2; subst h3; subst h4; subst h5; subst h6; subst h7
      simp only [Option.some.injEq, Prod.mk.injEq] at h
      obtain ⟨hg, hr⟩ := h
      exact ⟨q, by simp [hr], by rw [← hg], hq⟩
    · rw [if_neg hc] at h
      exact absurd h (by simp)

/-- A `from` match can only start at an `f`. -/
lemma matchLitFrom_none_of_head {c : Char} {t : List Char} (h : c ≠ 'f') :
    matchLitFrom (c :: t) = none := by
  cases hmv : matchLitFrom (c :: t) with
  | none => rfl
  | some gr =>
    obtain ⟨ws, q, hs, -, -, -, -⟩ := matchLitFrom_some_shape (by rw [hmv])
    simp at hs
    exact absurd hs.1 h

/-- An `import(` match can only start at an `i`. -/
lemma matchLitImp_none_of_head {c : Char} {t : List Char} (h : c ≠ 'i') :
    matchLitImp (c :: t) = none := by
  cases hmv : matchLitImp (c :: t) with
  | none => rfl
  | some gr =>
    obtain ⟨q, hs, -, -⟩ := matchLitImp_some_shape (by rw [hmv])
    simp at hs
    exact absurd hs.1 h

/-- A `from` match cannot start inside a whitespace-free region that ends
at a single quote: wherever the literal `from` would sit, the mandatory
`\s+` is cut off by a non-whitespace character or by the quote itself. -/
lemma matchLitFrom_none_mixed {u v : List Char} (huw : ∀ c ∈ u, pyWS c = false) :
    matchLitFrom (u ++ sqC :: v) = none := by
  cases hmv : matchLitFrom (u ++ sqC :: v) with
  | none => rfl
  | some gr =>
    exfalso
    obtain ⟨ws, q, hs, -, hwne, hwall, -⟩ := matchLitFrom_some_shape (by rw [hmv])
    rcases u with _ | ⟨u1, _ | ⟨u2, _ | ⟨u3, _ | ⟨u4, u'⟩⟩⟩⟩
    · simp only [List.nil_append, List.cons_append, List.cons.injEq, List.append_assoc] at hs
      exact absurd hs.1 (by decide)
    · simp only [List.cons_append, List.nil_append, List.cons.injEq, List.append_assoc] at hs
      exact absurd hs.2.1 (by decide)
    · simp only [List.cons_append, List.nil_append, List.cons.injEq, List.append_assoc] at hs
      exact absurd hs.2.2.1 (by decide)
    · simp only [List.cons_append, List.nil_append, List.cons.injEq, List.append_assoc] at hs
      exact absurd hs.2.2.2.1 (by decide)
    · simp only [List.cons_append, List.nil_append, List.cons.injEq, List.append_assoc] at hs
      obtain ⟨-, -, -, -, htail⟩ := hs
      rcases ws with _ | ⟨w, ws'⟩
      · exact hwne rfl
      · have hw : pyWS w = true := hwall w (by simp)
        rcases u' with _ | ⟨e, u''⟩
        · simp only [List.nil_append, List.cons_append, List.cons.injEq] at htail
          rw [← htail.1] at hw
          exact absurd hw (by decide)
        · simp only [List.cons_append, List.cons.injEq] at htail
          have he : pyWS e = false := huw e (by simp)
          rw [← htail.1] at hw
          rw [hw] at he
          exact absurd he (by decide)

/-- An `import(` match cannot start inside a parenthesis-free region that
ends at a single quote. -/
lemma matchLitImp_none_mixed {u v : List Char} (hup : ∀ c ∈ u, c ≠ '(') :
    matchLitImp (u ++ sqC :: v) = none := by
  cases hmv : matchLitImp (u ++ sqC :: v) with
  | none => rfl
  | some gr =>
    exfalso
    obtain ⟨q, hs, -, -⟩ := matchLitImp_some_shape (by rw [hmv])
    rcases u with _ | ⟨u1, _ | ⟨u2, _ | ⟨u3, _ | ⟨u4, _ | ⟨u5, _ | ⟨u6, _ | ⟨u7, u'⟩⟩⟩⟩⟩⟩⟩
    · simp only [List.nil_append, List.cons_append, List.cons.injEq, List.append_assoc] at hs
      exact absurd hs.1 (by decide)
    · simp only [List.cons_append, List.nil_append, List.cons.injEq, List.append_assoc] at hs
      exact absurd hs.2.1 (by decide)
    · simp only [List.cons_append, List.nil_append, List.cons.injEq, List.append_assoc] at hs
      exact absurd hs.2.2.1 (by decide)
    · simp only [List.cons_append, List.nil_append, List.cons.injEq, List.append_assoc] at hs
      exact absurd hs.2.2.2.1 (by decide)
    · simp only [List.cons_append, List.nil_append, List.cons.injEq, List.append_assoc] at hs
      exact absurd hs.2.2.2.2.1 (by decide)
    · simp only [List.cons_append, List.nil_append, List.cons.injEq, List.append_assoc] at hs
      exact absurd hs.2.2.2.2.2.1 (by decide)
    · simp only [List.cons_append, List.nil_append, List.cons.injEq, List.append_assoc] at hs
      exact absurd hs.2.2.2.2.2.2.1 (by decide)
    · simp only [List.cons_append, List.nil_append, List.cons.injEq, List.append_assoc] at hs
      exact absurd hs.2.2.2.2.2.2.1 (hup u7 (by simp))

/-- The `from '` opener matches exactly at a canonical specifier. -/
lemma matchLitFrom_fromQ (t : List Char) :
    matchLitFrom (fromQ ++ t) = some (fromQ, t) := by
  have h1 : pyWS ' ' = true := pyWS_space
  have h2 : pyWS sqC = false := pyWS_sqC
  have h3 : isQuote sqC = true := isQuote_sqC
  simp [fromQ, matchLitFrom, matchWsQuote, List.dropWhile_cons, List.takeWhile_cons, h1, h2, h3]

/-- The `import('` opener matches exactly at a canonical specifier. -/
lemma matchLitImp_impQ (t : List Char) :
    matchLitImp (impQ ++ t) = some (impQ, t) := by
  simp [impQ, matchLitImp, isQuote_sqC]

/-- Shape of a successful `([./][^'"]+)(['"])` match. -/
lemma matchSpecBody_some_shape {rr p g3 rest : List Char}
    (h : matchSpecBody rr = some (p, g3, rest)) :
    ∃ c0 body q2, rr = c0 :: body ++ q2 :: rest ∧ p = c0 :: body ∧ g3 = [q2] ∧
      (c0 = '.' ∨ c0 = '/') ∧ body ≠ [] := by
  rcases rr with _ | ⟨c0, r2⟩
  · simp [matchSpecBody] at h
  · have heq : matchSpecBody (c0 :: r2) =
      if c0 = '.' ∨ c0 = '/' then
        match r2.dropWhile (fun c => !(isQuote c)) with
        | q2 :: rest =>
          if r2.takeWhile (fun c => !(isQuote c)) = [] then none
          else some (c0 :: r2.takeWhile (fun c => !(isQuote c)), [q2], rest)
        | [] => none
      else none := rfl
    rw [heq] at h
    by_cases hc : c0 = '.' ∨ c0 = '/'
    · rw [if_pos hc] at h
      cases hd : r2.dropWhile (fun c => !(isQuote c)) with
      | nil => rw [hd] at h; exact absurd h (by simp)
      | cons q2 rest2 =>
        rw [hd] at h
        simp only [] at h
        by_cases hb : r2.takeWhile (fun c => !(isQuote c)) = []
        · rw [if_pos hb] at h; exact absurd h (by simp)
        · rw [if_neg hb] at h
          simp only [Option.some.injEq, Prod.mk.injEq] at h
          obtain ⟨hp, hg3, hrest⟩ := h
          refine ⟨c0, r2.takeWhile (fun c => !(isQuote c)), q2, ?_, hp.symm, hg3.symm, hc, hb⟩
          have hsplit := List.takeWhile_append_dropWhile (fun c => !(isQuote c)) r2
          rw [hd] at hsplit
          rw [← hrest]
          simp only [List.cons_append, List.cons.injEq, true_and]
          exact hsplit.symm
    · rw [if_neg hc] at h
      exact absurd h (by simp)

/-- Shape of a successful `([./][^'"]+)(['"]\))` match. -/
lemma matchSpecBodyParen_some_shape {rr p g3 rest : List Char}
    (h : matchSpecBodyParen rr = some (p, g3, rest)) :
    ∃ c0 body q2, rr = c0 :: body ++ q2 :: ')' :: rest ∧ p = c0 :: body ∧ g3 = [q2, ')'] ∧
      (c0 = '.' ∨ c0 = '/') ∧ body ≠ [] := by
  rcases rr with _ | ⟨c0, r2⟩
  · simp [matchSpecBodyParen] at h
  · have heq : matchSpecBodyParen (c0 :: r2) =
      if c0 = '.' ∨ c0 = '/' then
        match r2.dropWhile (fun c => !(isQuote c)) with
        | q2 :: c9 :: rest =>
          if r2.takeWhile (fun c => !(isQuote c)) = [] ∨ ¬(c9 = ')') then none
          else some (c0 :: r2.takeWhile (fun c => !(isQuote c)), [q2, c9], rest)
        | _ => none
      else none := rfl
    rw [heq] at h
    by_cases hc : c0 = '.' ∨ c0 = '/'
    · rw [if_pos hc] at h
      cases hd : r2.dropWhile (fun c => !(isQuote c)) with
      | nil => rw [hd] at h; exact absurd h (by simp)
      | cons q2 rest2 =>
        cases rest2 with
        | nil => rw [hd] at h; exact absurd h (by simp)
        | cons c9 rest3 =>
          rw [hd] at h
          simp only [] at h
          by_cases hb : r2.takeWhile (fun c => !(isQuote c)) = [] ∨ ¬(c9 = ')')
          · rw [if_pos hb] at h; exact absurd h (by simp)
          · rw [if_neg hb] at h
            push_neg at hb
            simp only [Option.some.injEq, Prod.mk.injEq] at h
            obtain ⟨hp, hg3, hrest⟩ := h
            refine ⟨c0, r2.takeWhile (fun c => !(isQuote c)), q2, ?_, hp.symm, ?_, hc, hb.1⟩
            · have hsplit := List.takeWhile_append_dropWhile (fun c => !(isQuote c)) r2
              rw [hd] at hsplit
              rw [← hrest, ← hb.2]
              simp only [List.cons_append, List.cons.injEq, true_and]
              exact hsplit.symm
            · rw [← hg3, hb.2]
    · rw [if_neg hc] at h
      exact absurd h (by simp)

/-- Canonical success of `matchSpecBody` at a clean path followed by the
closing quote. -/
lemma matchSpecBody_clean {c0 : Char} {p1 t : List Char} (hc : c0 = '.' ∨ c0 = '/')
    (hp : ∀ c ∈ p1, isQuote c = false) (hne : p1 ≠ []) :
    matchSpecBody ((c0 :: p1) ++ sqC :: t) = some (c0 :: p1, [sqC], t) := by
  have hdw : (p1 ++ sqC :: t).dropWhile (fun c => !(isQuote c)) = sqC :: t := by
    rw [dropWhile_append_all (fun c hcm => by simp [hp c hcm])]
    simp [List.dropWhile_cons, isQuote_sqC]
  have htw : (p1 ++ sqC :: t).takeWhile (fun c => !(isQuote c)) = p1 := by
    rw [takeWhile_append_all (fun c hcm => by simp [hp c hcm])]
    simp [List.takeWhile_cons, isQuote_sqC]
  have heq : matchSpecBody ((c0 :: p1) ++ sqC :: t) =
      if c0 = '.' ∨ c0 = '/' then
        match (p1 ++ sqC :: t).dropWhile (fun c => !(isQuote c)) with
        | q2 :: rest =>
          if (p1 ++ sqC :: t).takeWhile (fun c => !(isQuote c)) = [] then none
          else some (c0 :: (p1 ++ sqC :: t).takeWhile (fun c => !(isQuote c)), [q2], rest)
        | [] => none
      else none := rfl
  rw [heq, if_pos hc, hdw]
  simp only [htw]
  rw [if_neg hne]

/-- Canonical success of `matchSpecBodyParen` at a clean path followed by
the closing quote and parenthesis. -/
lemma matchSpecBodyParen_clean {c0 : Char} {p1 t : List Char} (hc : c0 = '.' ∨ c0 = '/')
    (hp : ∀ c ∈ p1, isQuote c = false) (hne : p1 ≠ []) :
    matchSpecBodyParen ((c0 :: p1) ++ sqC :: ')' :: t) = some (c0 :: p1, [sqC, ')'], t) := by
  have hdw : (p1 ++ sqC :: ')' :: t).dropWhile (fun c => !(isQuote c)) = sqC :: ')' :: t := by
    rw [dropWhile_append_all (fun c hcm => by simp [hp c hcm])]
    simp [List.dropWhile_cons, isQuote_sqC]
  have htw : (p1 ++ sqC :: ')' :: t).takeWhile (fun c => !(isQuote c)) = p1 := by
    rw [takeWhile_append_all (fun c hcm => by simp [hp c hcm])]
    simp [List.takeWhile_cons, isQuote_sqC]
  have heq : matchSpecBodyParen ((c0 :: p1) ++ sqC :: ')' :: t) =
      if c0 = '.' ∨ c0 = '/' then
        match (p1 ++ sqC :: ')' :: t).dropWhile (fun c => !(isQuote c)) with
        | q2 :: c9 :: rest =>
          if (p1 ++ sqC :: ')' :: t).takeWhile (fun c => !(isQuote c)) = [] ∨ ¬(c9 = ')') then none
          else some (c0 :: (p1 ++ sqC :: ')' :: t).takeWhile (fun c => !(isQuote c)), [q2, c9], rest)
        | _ => none
      else none := rfl
  rw [heq, if_pos hc, hdw]
  simp only [htw]
  rw [if_neg (by simp [hne])]

lemma munchDD_dd (r : List Char) :
    munchDD (dotDotSlash ++ r) = ((munchDD r).1 + 1, (munchDD r).2) := rfl

lemma munchDD_eq_self {r : List Char} (h : dotDotSlash.isPrefixOf r = false) :
    munchDD r = (0, r) := by
  unfold munchDD
  split
  · rename_i rest
    have h2 := dotDotSlash_isPrefixOf_append rest
    rw [show dotDotSlash ++ rest = '.' :: '.' :: '/' :: rest from rfl] at h2
    rw [h2] at h
    exact absurd h (by decide)
  · rfl

lemma munchDD_ddRep {t : List Char} (ht : dotDotSlash.isPrefixOf t = false) :
    ∀ k, munchDD (ddRep k ++ t) = (k, t) := by
  intro k
  induction k with
  | zero => simpa [ddRep] using munchDD_eq_self ht
  | succ k ih =>
    have hsh : ddRep (k + 1) ++ t = dotDotSlash ++ (ddRep k ++ t) := by
      simp [ddRep, dotDotSlash]
    rw [hsh, munchDD_dd, ih]

lemma ddRep_append (k : Nat) (t : List Char) :
    ddRep (k + 1) ++ t = dotDotSlash ++ (ddRep k ++ t) := by
  simp [ddRep, dotDotSlash]

lemma isPrefixOf_ds_append_sq (p v : List Char) :
    dotSlash.isPrefixOf (p ++ sqC :: v) = dotSlash.isPrefixOf p := by
  rcases p with _ | ⟨a, _ | ⟨b, p'⟩⟩
  · simp [dotSlash, List.isPrefixOf, show ('.' : Char) ≠ sqC from by decide]
  · simp [dotSlash, List.isPrefixOf, show ('/' : Char) ≠ sqC from by decide]
  · simp [dotSlash, List.isPrefixOf]

lemma isPrefixOf_dd_append_sq (p v : List Char) :
    dotDotSlash.isPrefixOf (p ++ sqC :: v) = dotDotSlash.isPrefixOf p := by
  rcases p with _ | ⟨a, _ | ⟨b, _ | ⟨c, p'⟩⟩⟩
  · simp [dotDotSlash, List.isPrefixOf, show ('.' : Char) ≠ sqC from by decide]
  · simp [dotDotSlash, List.isPrefixOf, show ('.' : Char) ≠ sqC from by decide]
  · simp [dotDotSlash, List.isPrefixOf, show ('/' : Char) ≠ sqC from by decide]
  · simp [dotDotSlash, List.isPrefixOf]

/-!  ### None-propagation from the literal openers to the full matchers -/

lemma mFromSpec_of_lit {s : List Char} (h : matchLitFrom s = none) : mFromSpec s = none := by
  simp [mFromSpec, h]

lemma mFixF1_of_lit {s : List Char} (h : matchLitFrom s = none) : mFixF1 s = none := by
  simp [mFixF1, h]

lemma mFixF2_of_lit {s : List Char} (h : matchLitFrom s = none) : mFixF2 s = none := by
  simp [mFixF2, h]

lemma mOverF_of_lit {s : List Char} (h : matchLitFrom s = none) : mOverF s = none := by
  simp [mOverF, h]

lemma mImpSpec_of_lit {s : List Char} (h : matchLitImp s = none) : mImpSpec s = none := by
  simp [mImpSpec, h]

lemma mFixI1_of_lit {s : List Char} (h : matchLitImp s = none) : mFixI1 s = none := by
  simp [mFixI1, h]

lemma mFixI2_of_lit {s : List Char} (h : matchLitImp s = none) : mFixI2 s = none := by
  simp [mFixI2, h]

lemma mOverI_of_lit {s : List Char} (h : matchLitImp s = none) : mOverI s = none := by
  simp [mOverI, h]

lemma ddRep_length : ∀ k, (ddRep k).length = 3 * k := by
  intro k
  induction k with
  | zero => rfl
  | succ k ih =>
    simp only [ddRep, List.length_cons, ih]
    omega

lemma munchDD_decomp (r : List Char) : r = ddRep (munchDD r).1 ++ (munchDD r).2 := by
  have H : ∀ n r, List.length r ≤ n → r = ddRep (munchDD r).1 ++ (munchDD r).2 := by
    intro n
    induction n with
    | zero =>
      intro r hr
      have : r = [] := List.length_eq_zero.mp (Nat.le_zero.mp hr)
      subst this
      rfl
    | succ n ih =>
      intro r hr
      by_cases h : dotDotSlash.isPrefixOf r = true
      · obtain ⟨tl, htl⟩ := List.isPrefixOf_iff_prefix.mp h
        subst htl
        rw [munchDD_dd]
        have htl' := ih tl (by simp at hr; simp [dotDotSlash] at hr ⊢; omega)
        calc dotDotSlash ++ tl
            = dotDotSlash ++ (ddRep (munchDD tl).1 ++ (munchDD tl).2) := by rw [← htl']
          _ = ddRep ((munchDD tl).1 + 1) ++ (munchDD tl).2 := by
              rw [ddRep_append]
      · rw [munchDD_eq_self (by simp [h])]
        rfl
  exact H r.length r le_rfl

/-!  ### Every matcher consumes input -/

lemma consuming_mFromSpec : Consuming mFromSpec := by
  intro s r t h
  unfold mFromSpec at h
  cases hl : matchLitFrom s with
  | none => simp [hl] at h
  | some g1r =>
    obtain ⟨g1, rr⟩ := g1r
    simp only [hl] at h
    cases hb : matchSpecBody rr with
    | none => simp [hb] at h
    | some pg =>
      obtain ⟨p, g3, rest⟩ := pg
      simp only [hb, Option.some.injEq, Prod.mk.injEq] at h
      obtain ⟨-, ht⟩ := h
      subst ht
      obtain ⟨ws, q, hs, -, -, -, -⟩ := matchLitFrom_some_shape hl
      obtain ⟨c0, body, q2, hrr, -, -, -, -⟩ := matchSpecBody_some_shape hb
      subst hs; subst hrr
      simp [List.length_append]
      omega

lemma consuming_mImpSpec : Consuming mImpSpec := by
  intro s r t h
  unfold mImpSpec at h
  cases hl : matchLitImp s with
  | none => simp [hl] at h
  | some g1r =>
    obtain ⟨g1, rr⟩ := g1r
    simp only [hl] at h
    cases hb : matchSpecBodyParen rr with
    | none => simp [hb] at h
    | some pg =>
      obtain ⟨p, g3, rest⟩ := pg
      simp only [hb, Option.some.injEq, Prod.mk.injEq] at h
      obtain ⟨-, ht⟩ := h
      subst ht
      obtain ⟨q, hs, -, -⟩ := matchLitImp_some_shape hl
      obtain ⟨c0, body, q2, hrr, -, -, -, -⟩ := matchSpecBodyParen_some_shape hb
      subst hs; subst hrr
      simp [List.length_append]
      omega

lemma consuming_mFixF1 : Consuming mFixF1 := by
  intro s r t h
  unfold mFixF1 at h
  cases hl : matchLitFrom s with
  | none => simp [hl] at h
  | some g1r =>
    obtain ⟨g1, rr⟩ := g1r
    simp only [hl] at h
    by_cases hp : dotDotSlash.isPrefixOf rr = true
    · rw [if_pos hp] at h
      simp only [Option.some.injEq, Prod.mk.injEq] at h
      obtain ⟨-, ht⟩ := h
      subst ht
      obtain ⟨ws, q, hs, -, -, -, -⟩ := matchLitFrom_some_shape hl
      subst hs
      have hd : (rr.drop 3).length ≤ rr.length := by
        simp [List.length_drop]
      simp only [List.length_append, List.length_cons]
      omega
    · rw [if_neg hp] at h
      exact absurd h (by simp)

lemma consuming_mFixI1 : Consuming mFixI1 := by
  intro s r t h
  unfold mFixI1 at h
  cases hl : matchLitImp s with
  | none => simp [hl] at h
  | some g1r =>
    obtain ⟨g1, rr⟩ := g1r
    simp only [hl] at h
    by_cases hp : dotDotSlash.isPrefixOf rr = true
    · rw [if_pos hp] at h
      simp only [Option.some.injEq, Prod.mk.injEq] at h
      obtain ⟨-, ht⟩ := h
      subst ht
      obtain ⟨q, hs, -, -⟩ := matchLitImp_some_shape hl
      subst hs
      have hd : (rr.drop 3).length ≤ rr.length := by
        simp [List.length_drop]
      simp only [List.length_append, List.length_cons]
      omega
    · rw [if_neg hp] at h
      exact absurd h (by simp)

lemma consuming_mFixF2 : Consuming mFixF2 := by
  intro s r t h
  unfold mFixF2 at h
  cases hl : matchLitFrom s with
  | none => simp [hl] at h
  | some g1r =>
    obtain ⟨g1, rr⟩ := g1r
    simp only [hl] at h
    by_cases hp : dotSlash.isPrefixOf rr = true
    · rw [if_pos hp] at h
      cases hd : (rr.drop 2).dropWhile (fun c => !(isQuote c)) with
      | nil => rw [hd] at h; exact absurd h (by simp)
      | cons q rest2 =>
        rw [hd] at h
        simp only [] at h
        by_cases hb : (rr.drop 2).takeWhile (fun c => !(isQuote c)) = []
        · rw [if_pos hb] at h; exact absurd h (by simp)
        · rw [if_neg hb] at h
          simp only [Option.some.injEq, Prod.mk.injEq] at h
          obtain ⟨-, ht⟩ := h
          subst ht
          obtain ⟨ws, q', hs, -, -, -, -⟩ := matchLitFrom_some_shape hl
          subst hs
          have hsplit := List.takeWhile_append_dropWhile (fun c => !(isQuote c)) (rr.drop 2)
          rw [hd] at hsplit
          have hlen := congrArg List.length hsplit
          simp only [List.length_append, List.length_cons, List.length_drop] at hlen
          have hd2 : (rr.drop 2).length ≤ rr.length := by simp [List.length_drop]
          simp only [List.length_append, List.length_cons, List.length_drop] at hd2 ⊢
          omega
    · rw [if_neg hp] at h
      exact absurd h (by simp)

lemma consuming_mFixI2 : Consuming mFixI2 := by
  intro s r t h
  unfold mFixI2 at h
  cases hl : matchLitImp s with
  | none => simp [hl] at h
  | some g1r =>
    obtain ⟨g1, rr⟩ := g1r
    simp only [hl] at h
    by_cases hp : dotSlash.isPrefixOf rr = true
    · rw [if_pos hp] at h
      cases hd : (rr.drop 2).dropWhile (fun c => !(isQuote c)) with
      | nil => rw [hd] at h; exact absurd h (by simp)
      | cons q rest2 =>
        rw [hd] at h
        simp only [] at h
        by_cases hb : (rr.drop 2).takeWhile (fun c => !(isQuote c)) = []
        · rw [if_pos hb] at h; exact absurd h (by simp)
        · rw [if_neg hb] at h
          simp only [Option.some.injEq, Prod.mk.injEq] at h
          obtain ⟨-, ht⟩ := h
          subst ht
          obtain ⟨q', hs, -, -⟩ := matchLitImp_some_shape hl
          subst hs
          have hsplit := List.takeWhile_append_dropWhile (fun c => !(isQuote c)) (rr.drop 2)
          rw [hd] at hsplit
          have hlen := congrArg List.length hsplit
          simp only [List.length_append, List.length_cons, List.length_drop] at hlen
          have hd2 : (rr.drop 2).length ≤ rr.length := by simp [List.length_drop]
          simp only [List.length_append, List.length_cons, List.length_drop] at hd2 ⊢
          omega
    · rw [if_neg hp] at h
      exact absurd h (by simp)

lemma consuming_mOverF : Consuming mOverF := by
  intro s r t h
  unfold mOverF at h
  cases hl : matchLitFrom s with
  | none => simp [hl] at h
  | some g1r =>
    obtain ⟨g1, rr⟩ := g1r
    simp only [hl] at h
    cases hmu : munchDD rr with
    | mk k rest =>
      rw [hmu] at h
      cases k with
      | zero => exact absurd h (by simp)
      | succ k =>
        simp only [Option.some.injEq, Prod.mk.injEq] at h
        obtain ⟨-, ht⟩ := h
        subst ht
        obtain ⟨ws, q, hs, -, -, -, -⟩ := matchLitFrom_some_shape hl
        subst hs
        have hmd := munchDD_decomp rr
        rw [hmu] at hmd
        have : rr.length = (ddRep (k + 1)).length + rest.length := by
          rw [hmd]; simp
        have hdd : (ddRep (k + 1)).length = 3 * (k + 1) := ddRep_length (k + 1)
        simp only [List.length_append, List.length_cons]
        omega

lemma consuming_mOverI : Consuming mOverI := by
  intro s r t h
  unfold mOverI at h
  cases hl : matchLitImp s with
  | none => simp [hl] at h
  | some g1r =>
    obtain ⟨g1, rr⟩ := g1r
    simp only [hl] at h
    cases hmu : munchDD rr with
    | mk k rest =>
      rw [hmu] at h
      cases k with
      | zero => exact absurd h (by simp)
      | succ k =>
        simp only [Option.some.injEq, Prod.mk.injEq] at h
        obtain ⟨-, ht⟩ := h
        subst ht
        obtain ⟨q, hs, -, -⟩ := matchLitImp_some_shape hl
        subst hs
        have hmd := munchDD_decomp rr
        rw [hmu] at hmd
        have : rr.length = (ddRep (k + 1)).length + rest.length := by
          rw [hmd]; simp
        have hdd : (ddRep (k + 1)).length = 3 * (k + 1) := ddRep_length (k + 1)
        simp only [List.length_append, List.length_cons]
        omega

lemma consuming_mRepl (old new : List Char) : Consuming (mRepl old new) := by
  intro s r t h
  unfold mRepl at h
  by_cases hc : old ≠ [] ∧ old.isPrefixOf s = true
  · rw [if_pos hc] at h
    simp only [Option.some.injEq, Prod.mk.injEq] at h
    obtain ⟨-, ht⟩ := h
    subst ht
    obtain ⟨tl, htl⟩ := List.isPrefixOf_iff_prefix.mp hc.2
    subst htl
    have hol : 0 < old.length := List.length_pos.mpr hc.1
    simp only [List.length_drop, List.length_append]
    omega
  · rw [if_neg hc] at h
    exact absurd h (by simp)

lemma mRepl_self (old : List Char) :
    ∀ s r t, mRepl old old s = some (r, t) → s = r ++ t := by
  intro s r t h
  unfold mRepl at h
  by_cases hc : old ≠ [] ∧ old.isPrefixOf s = true
  · rw [if_pos hc] at h
    simp only [Option.some.injEq, Prod.mk.injEq] at h
    obtain ⟨hr, ht⟩ := h
    subst hr; subst ht
    obtain ⟨tl, htl⟩ := List.isPrefixOf_iff_prefix.mp hc.2
    subst htl
    rw [List.drop_left]
  · rw [if_neg hc] at h
    exact absurd h (by simp)

/-- `str.replace(old, old)` is the identity. -/
lemma pyReplace_self (s old : List Char) : pyReplace s old old = s :=
  gsub_id_of_self_repl (consuming_mRepl old old) (mRepl_self old) s

/-!  ## Canonical single-specifier contents

The family theorems below consider contents of the shape
`pre ++ fromSpec p ++ post` (and the `import(` analogue): a specifier
with single quotes and a single space, a path free of whitespace, quote
and parenthesis characters, and surrounding text containing neither `f`
nor `i` (so that no further pattern can trigger in it). -/

/-- The path contains no whitespace, quote, or `(` character. -/
def CleanPath (p : List Char) : Prop :=
  ∀ c ∈ p, pyWS c = false ∧ isQuote c = false ∧ c ≠ '('

/-- The surrounding text contains no `f` and no `i`, hence no position
in it can start a `from` or `import(` pattern. -/
def InertText (v : List Char) : Prop := ∀ c ∈ v, c ≠ 'f' ∧ c ≠ 'i'

lemma not_dd_isPrefixOf_ds (rest : List Char) :
    dotDotSlash.isPrefixOf (dotSlash ++ rest) = false := by
  simp [dotSlash, dotDotSlash, List.isPrefixOf]

/-!  ### The matchers at the canonical specifier -/

lemma mFromSpec_at_spec {c0 : Char} {p1 post : List Char} (hc : c0 = '.' ∨ c0 = '/')
    (hp : ∀ c ∈ p1, isQuote c = false) (hne : p1 ≠ []) :
    mFromSpec (fromQ ++ ((c0 :: p1) ++ sqC :: post)) =
      some (fix_import_statement fromQ (c0 :: p1) [sqC], post) := by
  simp only [mFromSpec, matchLitFrom_fromQ, matchSpecBody_clean hc hp hne]

lemma mImpSpec_at_spec {c0 : Char} {p1 post : List Char} (hc : c0 = '.' ∨ c0 = '/')
    (hp : ∀ c ∈ p1, isQuote c = false) (hne : p1 ≠ []) :
    mImpSpec (impQ ++ ((c0 :: p1) ++ sqC :: ')' :: post)) =
      some (fix_import_statement impQ (c0 :: p1) [sqC, ')'], post) := by
  simp only [mImpSpec, matchLitImp_impQ, matchSpecBodyParen_clean hc hp hne]

lemma mFromSpec_at_bad {p post : List Char}
    (h : matchSpecBody (p ++ sqC :: post) = none) :
    mFromSpec (fromQ ++ (p ++ sqC :: post)) = none := by
  simp only [mFromSpec, matchLitFrom_fromQ, h]

lemma mImpSpec_at_bad {p post : List Char}
    (h : matchSpecBodyParen (p ++ sqC :: ')' :: post) = none) :
    mImpSpec (impQ ++ (p ++ sqC :: ')' :: post)) = none := by
  simp only [mImpSpec, matchLitImp_impQ, h]

lemma mFixF1_at_dd {rest post : List Char} :
    mFixF1 (fromQ ++ ((dotDotSlash ++ rest) ++ sqC :: post)) =
      some (fromQ ++ dotDotSlash ++ dotDotSlash, rest ++ sqC :: post) := by
  rw [show (dotDotSlash ++ rest) ++ sqC :: post = dotDotSlash ++ (rest ++ sqC :: post) by
    simp]
  simp only [mFixF1, matchLitFrom_fromQ]
  rw [if_pos (dotDotSlash_isPrefixOf_append _)]
  rw [show (3 : Nat) = dotDotSlash.length from rfl, List.drop_left]

lemma mFixI1_at_dd {rest post : List Char} :
    mFixI1 (impQ ++ ((dotDotSlash ++ rest) ++ sqC :: post)) =
      some (impQ ++ dotDotSlash ++ dotDotSlash, rest ++ sqC :: post) := by
  rw [show (dotDotSlash ++ rest) ++ sqC :: post = dotDotSlash ++ (rest ++ sqC :: post) by
    simp]
  simp only [mFixI1, matchLitImp_impQ]
  rw [if_pos (dotDotSlash_isPrefixOf_append _)]
  rw [show (3 : Nat) = dotDotSlash.length from rfl, List.drop_left]

lemma mFixF1_at_no_dd {p post : List Char} (h : dotDotSlash.isPrefixOf p = false) :
    mFixF1 (fromQ ++ (p ++ sqC :: post)) = none := by
  simp only [mFixF1, matchLitFrom_fromQ]
  rw [if_neg]
  rw [isPrefixOf_dd_append_sq, h]
  simp

lemma mFixI1_at_no_dd {p post : List Char} (h : dotDotSlash.isPrefixOf p = false) :
    mFixI1 (impQ ++ (p ++ sqC :: post)) = none := by
  simp only [mFixI1, matchLitImp_impQ]
  rw [if_neg]
  rw [isPrefixOf_dd_append_sq, h]
  simp

lemma mFixF2_at_no_ds {p post : List Char} (h : dotSlash.isPrefixOf p = false) :
    mFixF2 (fromQ ++ (p ++ sqC :: post)) = none := by
  simp only [mFixF2, matchLitFrom_fromQ]
  rw [if_neg]
  rw [isPrefixOf_ds_append_sq, h]
  simp

lemma mFixI2_at_no_ds {p post : List Char} (h : dotSlash.isPrefixOf p = false) :
    mFixI2 (impQ ++ (p ++ sqC :: post)) = none := by
  simp only [mFixI2, matchLitImp_impQ]
  rw [if_neg]
  rw [isPrefixOf_ds_append_sq, h]
  simp

lemma mOverF_at_dd {k : Nat} {rest post : List Char}
    (hrest : dotDotSlash.isPrefixOf rest = false) :
    mOverF (fromQ ++ ((ddRep (k + 1) ++ rest) ++ sqC :: post)) =
      some (fromQ ++ ddRep k, rest ++ sqC :: post) := by
  simp only [mOverF, matchLitFrom_fromQ]
  rw [show (ddRep (k + 1) ++ rest) ++ sqC :: post = ddRep (k + 1) ++ (rest ++ sqC :: post) by
    simp]
  rw [munchDD_ddRep (by rw [isPrefixOf_dd_append_sq, hrest]) (k + 1)]

lemma mOverI_at_dd {k : Nat} {rest post : List Char}
    (hrest : dotDotSlash.isPrefixOf rest = false) :
    mOverI (impQ ++ ((ddRep (k + 1) ++ rest) ++ sqC :: post)) =
      some (impQ ++ ddRep k, rest ++ sqC :: post) := by
  simp only [mOverI, matchLitImp_impQ]
  rw [show (ddRep (k + 1) ++ rest) ++ sqC :: post = ddRep (k + 1) ++ (rest ++ sqC :: post) by
    simp]
  rw [munchDD_ddRep (by rw [isPrefixOf_dd_append_sq, hrest]) (k + 1)]

lemma mOverF_at_no_dd {p post : List Char} (h : dotDotSlash.isPrefixOf p = false) :
    mOverF (fromQ ++ (p ++ sqC :: post)) = none := by
  simp only [mOverF, matchLitFrom_fromQ]
  rw [munchDD_eq_self (by rw [isPrefixOf_dd_append_sq, h])]

lemma mOverI_at_no_dd {p post : List Char} (h : dotDotSlash.isPrefixOf p = false) :
    mOverI (impQ ++ (p ++ sqC :: post)) = none := by
  simp only [mOverI, matchLitImp_impQ]
  rw [munchDD_eq_self (by rw [isPrefixOf_dd_append_sq, h])]

lemma mFixF2_at_ds {rest post : List Char} (hr : ∀ c ∈ rest, isQuote c = false)
    (hne : rest ≠ []) :
    mFixF2 (fromQ ++ ((dotSlash ++ rest) ++ sqC :: post)) =
      some (fromQ ++ dotDotSlash ++ rest ++ [sqC], post) := by
  rw [show (dotSlash ++ rest) ++ sqC :: post = dotSlash ++ (rest ++ sqC :: post) by simp]
  simp only [mFixF2, matchLitFrom_fromQ]
  rw [if_pos (dotSlash_isPrefixOf_append _)]
  rw [show (2 : Nat) = dotSlash.length from rfl, List.drop_left]
  have hdw : (rest ++ sqC :: post).dropWhile (fun c => !(isQuote c)) = sqC :: post := by
    rw [dropWhile_append_all (fun c hcm => by simp [hr c hcm])]
    simp [List.dropWhile_cons, isQuote_sqC]
  have htw : (rest ++ sqC :: post).takeWhile (fun c => !(isQuote c)) = rest := by
    rw [takeWhile_append_all (fun c hcm => by simp [hr c hcm])]
    simp [List.takeWhile_cons, isQuote_sqC]
  rw [hdw]
  simp only [htw]
  rw [if_neg hne]

lemma mFixI2_at_ds {rest post : List Char} (hr : ∀ c ∈ rest, isQuote c = false)
    (hne : rest ≠ []) :
    mFixI2 (impQ ++ ((dotSlash ++ rest) ++ sqC :: post)) =
      some (impQ ++ dotDotSlash ++ rest ++ [sqC], post) := by
  rw [show (dotSlash ++ rest) ++ sqC :: post = dotSlash ++ (rest ++ sqC :: post) by simp]
  simp only [mFixI2, matchLitImp_impQ]
  rw [if_pos (dotSlash_isPrefixOf_append _)]
  rw [show (2 : Nat) = dotSlash.length from rfl, List.drop_left]
  have hdw : (rest ++ sqC :: post).dropWhile (fun c => !(isQuote c)) = sqC :: post := by
    rw [dropWhile_append_all (fun c hcm => by simp [hr c hcm])]
    simp [List.dropWhile_cons, isQuote_sqC]
  have htw : (rest ++ sqC :: post).takeWhile (fun c => !(isQuote c)) = rest := by
    rw [takeWhile_append_all (fun c hcm => by simp [hr c hcm])]
    simp [List.takeWhile_cons, isQuote_sqC]
  rw [hdw]
  simp only [htw]
  rw [if_neg hne]

/-!  ### Scanning through the regions surrounding a specifier -/

/-- A `from`-based pass does not fire anywhere in a whitespace-free
region followed by a quote and text without `f`. -/
lemma gsub_from_mixed_id {m : Matcher} (hlit : ∀ s, matchLitFrom s = none → m s = none)
    {u v : List Char} (hu : ∀ c ∈ u, pyWS c = false) (hv : ∀ c ∈ v, c ≠ 'f') :
    gsub m (u ++ sqC :: v) = u ++ sqC :: v := by
  induction u with
  | nil =>
    rw [List.nil_append,
      gsub_cons_none (hlit _ (matchLitFrom_none_of_head (by decide))),
      gsub_id_of_no_head (fun c hc t => hlit _ (matchLitFrom_none_of_head (hv c hc)))]
  | cons c u' ih =>
    rw [List.cons_append,
      gsub_cons_none (hlit _ (by
        rw [show c :: (u' ++ sqC :: v) = (c :: u') ++ sqC :: v from rfl]
        exact matchLitFrom_none_mixed hu)),
      ih (fun d hd => hu d (by simp [hd]))]

/-- An `import(`-based pass does not fire anywhere in a
parenthesis-free region followed by a quote and text without `i`. -/
lemma gsub_imp_mixed_id {m : Matcher} (hlit : ∀ s, matchLitImp s = none → m s = none)
    {u v : List Char} (hu : ∀ c ∈ u, c ≠ '(') (hv : ∀ c ∈ v, c ≠ 'i') :
    gsub m (u ++ sqC :: v) = u ++ sqC :: v := by
  induction u with
  | nil =>
    rw [List.nil_append,
      gsub_cons_none (hlit _ (matchLitImp_none_of_head (by decide))),
      gsub_id_of_no_head (fun c hc t => hlit _ (matchLitImp_none_of_head (hv c hc)))]
  | cons c u' ih =>
    rw [List.cons_append,
      gsub_cons_none (hlit _ (by
        rw [show c :: (u' ++ sqC :: v) = (c :: u') ++ sqC :: v from rfl]
        exact matchLitImp_none_mixed hu)),
      ih (fun d hd => hu d (by simp [hd]))]

lemma gsub_cons_some' {m : Matcher} (hm : Consuming m) {s r t : List Char}
    (h : m s = some (r, t)) (hs : s ≠ []) : gsub m s = r ++ gsub m t := by
  cases s with
  | nil => exact absurd rfl hs
  | cons c rest => exact gsub_cons_some hm h

lemma cleanPath_append {x y : List Char} (hx : CleanPath x) (hy : CleanPath y) :
    CleanPath (x ++ y) := by
  intro c hc
  rcases List.mem_append.mp hc with h | h
  · exact hx c h
  · exact hy c h

lemma cleanPath_ds : CleanPath dotSlash := by
  intro c hc
  simp only [dotSlash, List.mem_cons, List.not_mem_nil, or_false] at hc
  rcases hc with h | h <;> subst h <;> refine ⟨by decide, by decide, by decide⟩

lemma cleanPath_dd : CleanPath dotDotSlash := by
  intro c hc
  simp only [dotDotSlash, List.mem_cons, List.not_mem_nil, or_false] at hc
  rcases hc with h | h | h <;> subst h <;> refine ⟨by decide, by decide, by decide⟩

lemma cleanPath_ddRep : ∀ k, CleanPath (ddRep k) := by
  intro k
  induction k with
  | zero => intro c hc; simp [ddRep] at hc
  | succ k ih =>
    intro c hc
    simp only [ddRep, List.mem_cons] at hc
    rcases hc with h | h | h | h
    · subst h; decide
    · subst h; decide
    · subst h; decide
    · exact ih c h

/-- `add_one_level` preserves path cleanliness. -/
lemma cleanPath_add {p : List Char} (hp : CleanPath p) : CleanPath (add_one_level p) := by
  unfold add_one_level
  by_cases h1 : dotSlash.isPrefixOf p = true
  · rw [if_pos h1]
    exact cleanPath_append cleanPath_dd (fun c hc => hp c (List.mem_of_mem_drop hc))
  · rw [if_neg h1]
    by_cases h2 : dotDotSlash.isPrefixOf p = true
    · rw [if_pos h2]
      exact cleanPath_append cleanPath_dd hp
    · rw [if_neg h2]
      exact hp

lemma fix_import_statement_in_scope {b p a : List Char}
    (h : dotSlash.isPrefixOf p = true ∨ dotDotSlash.isPrefixOf p = true) :
    fix_import_statement b p a = b ++ add_one_level_to_path p ++ a := by
  unfold fix_import_statement
  rw [if_pos (by rcases h with h | h <;> simp [h])]

lemma fix_import_statement_out_of_scope {b p a : List Char}
    (h1 : dotSlash.isPrefixOf p = false) (h2 : dotDotSlash.isPrefixOf p = false) :
    fix_import_statement b p a = b ++ p ++ a := by
  unfold fix_import_statement
  rw [if_neg (by simp [h1, h2])]

/-- Normal form of a canonical static-specifier content. -/
lemma fromSpec_assoc (pre p post : List Char) :
    pre ++ fromSpec p ++ post = pre ++ (fromQ ++ (p ++ sqC :: post)) := by
  simp [fromSpec]

/-- Normal form of a canonical dynamic-specifier content. -/
lemma impSpec_assoc (pre p post : List Char) :
    pre ++ impSpec p ++ post = pre ++ (impQ ++ (p ++ sqC :: ')' :: post)) := by
  simp [impSpec]

/-- A `from`-based pass scans over the whole canonical static specifier
when its matcher fails at the trigger position. -/
lemma gsub_from_spec_id {m : Matcher} (hlit : ∀ s, matchLitFrom s = none → m s = none)
    {p post : List Char} (hnm : m (fromQ ++ (p ++ sqC :: post)) = none)
    (hp : ∀ c ∈ p, pyWS c = false) (hpost : ∀ c ∈ post, c ≠ 'f') :
    gsub m (fromQ ++ (p ++ sqC :: post)) = fromQ ++ (p ++ sqC :: post) := by
  have hsh : fromQ ++ (p ++ sqC :: post) =
      'f' :: (['r', 'o', 'm', ' '] ++ sqC :: (p ++ sqC :: post)) := by
    simp [fromQ]
  rw [hsh]
  rw [gsub_cons_none (by rw [← hsh]; exact hnm)]
  rw [gsub_append_skip (fun c hc t => hlit _ (matchLitFrom_none_of_head (by
    simp only [List.mem_cons, List.not_mem_nil, or_false] at hc
    rcases hc with h | h | h | h <;> subst h <;> decide)))]
  rw [gsub_cons_none (hlit _ (matchLitFrom_none_of_head (by decide)))]
  rw [gsub_from_mixed_id hlit hp hpost]

/-- An `import(`-based pass scans over the whole canonical dynamic
specifier when its matcher fails at the trigger position. -/
lemma gsub_imp_spec_id {m : Matcher} (hlit : ∀ s, matchLitImp s = none → m s = none)
    {p post : List Char} (hnm : m (impQ ++ (p ++ sqC :: post)) = none)
    (hp : ∀ c ∈ p, c ≠ '(') (hpost : ∀ c ∈ post, c ≠ 'i') :
    gsub m (impQ ++ (p ++ sqC :: post)) = impQ ++ (p ++ sqC :: post) := by
  have hsh : impQ ++ (p ++ sqC :: post) =
      'i' :: (['m', 'p', 'o', 'r', 't', '('] ++ sqC :: (p ++ sqC :: post)) := by
    simp [impQ]
  rw [hsh]
  rw [gsub_cons_none (by rw [← hsh]; exact hnm)]
  rw [gsub_append_skip (fun c hc t => hlit _ (matchLitImp_none_of_head (by
    simp only [List.mem_cons, List.not_mem_nil, or_false] at hc
    rcases hc with h | h | h | h | h | h <;> subst h <;> decide)))]
  rw [gsub_cons_none (hlit _ (matchLitImp_none_of_head (by decide)))]
  rw [gsub_imp_mixed_id hlit hp hpost]

/-- An `import(`-based pass is the identity on a canonical static
specifier content. -/
lemma gsub_imp_id_on_fromContent {m : Matcher} (hlit : ∀ s, matchLitImp s = none → m s = none)
    {pre p post : List Char} (hpre : ∀ c ∈ pre, c ≠ 'i') (hp : ∀ c ∈ p, c ≠ '(')
    (hpost : ∀ c ∈ post, c ≠ 'i') :
    gsub m (pre ++ (fromQ ++ (p ++ sqC :: post))) = pre ++ (fromQ ++ (p ++ sqC :: post)) := by
  have hsh : pre ++ (fromQ ++ (p ++ sqC :: post)) =
      (pre ++ ['f', 'r', 'o', 'm', ' ']) ++ sqC :: (p ++ sqC :: post) := by
    simp [fromQ]
  rw [hsh]
  rw [gsub_append_skip (fun c hc t => hlit _ (matchLitImp_none_of_head (by
    rcases List.mem_append.mp hc with h | h
    · exact hpre c h
    · simp only [List.mem_cons, List.not_mem_nil, or_false] at h
      rcases h with h | h | h | h | h <;> subst h <;> decide)))]
  rw [gsub_cons_none (hlit _ (matchLitImp_none_of_head (by decide)))]
  rw [gsub_imp_mixed_id hlit hp hpost]

/-- A `from`-based pass is the identity on a canonical dynamic specifier
content. -/
lemma gsub_from_id_on_impContent {m : Matcher} (hlit : ∀ s, matchLitFrom s = none → m s = none)
    {pre p post : List Char} (hpre : ∀ c ∈ pre, c ≠ 'f') (hp : ∀ c ∈ p, pyWS c = false)
    (hpost : ∀ c ∈ post, c ≠ 'f') :
    gsub m (pre ++ (impQ ++ (p ++ sqC :: ')' :: post))) =
      pre ++ (impQ ++ (p ++ sqC :: ')' :: post)) := by
  have hsh : pre ++ (impQ ++ (p ++ sqC :: ')' :: post)) =
      (pre ++ ['i', 'm', 'p', 'o', 'r', 't', '(']) ++ sqC :: (p ++ sqC :: ')' :: post) := by
    simp [impQ]
  rw [hsh]
  rw [gsub_append_skip (fun c hc t => hlit _ (matchLitFrom_none_of_head (by
    rcases List.mem_append.mp hc with h | h
    · exact hpre c h
    · simp only [List.mem_cons, List.not_mem_nil, or_false] at h
      rcases h with h | h | h | h | h | h | h <;> subst h <;> decide)))]
  rw [gsub_cons_none (hlit _ (matchLitFrom_none_of_head (by decide)))]
  rw [gsub_from_mixed_id hlit hp (by
    intro c hc
    rcases List.mem_cons.mp hc with h | h
    · subst h; decide
    · exact hpost c h)]

/-!  ## The rewriters on canonical single-specifier contents -/

lemma fixImports_fromContent_dd {pre rest post : List Char}
    (hpre : InertText pre) (hpost : InertText post) (hrest : CleanPath rest) :
    fix_imports_rewrite (pre ++ fromSpec (dotDotSlash ++ rest) ++ post) =
      pre ++ fromSpec (dotDotSlash ++ (dotDotSlash ++ rest)) ++ post := by
  have hpreF : ∀ c ∈ pre, c ≠ 'f' := fun c hc => (hpre c hc).1
  have hpreI : ∀ c ∈ pre, c ≠ 'i' := fun c hc => (hpre c hc).2
  have hpostF : ∀ c ∈ post, c ≠ 'f' := fun c hc => (hpost c hc).1
  have hpostI : ∀ c ∈ post, c ≠ 'i' := fun c hc => (hpost c hc).2
  have hclean2 : CleanPath (dotDotSlash ++ (dotDotSlash ++ rest)) :=
    cleanPath_append cleanPath_dd (cleanPath_append cleanPath_dd hrest)
  rw [fromSpec_assoc, fromSpec_assoc]
  have h1 : gsub mFixF1 (pre ++ (fromQ ++ ((dotDotSlash ++ rest) ++ sqC :: post))) =
      pre ++ (fromQ ++ ((dotDotSlash ++ (dotDotSlash ++ rest)) ++ sqC :: post)) := by
    rw [gsub_append_skip (fun c hc t => mFixF1_of_lit (matchLitFrom_none_of_head (hpreF c hc)))]
    rw [gsub_cons_some' consuming_mFixF1 mFixF1_at_dd (by simp [fromQ])]
    rw [gsub_from_mixed_id (fun s hs => mFixF1_of_lit hs)
      (fun c hc => (hrest c hc).1) hpostF]
    simp [List.append_assoc]
  have h2 : gsub mFixF2 (pre ++ (fromQ ++ ((dotDotSlash ++ (dotDotSlash ++ rest)) ++ sqC :: post))) =
      pre ++ (fromQ ++ ((dotDotSlash ++ (dotDotSlash ++ rest)) ++ sqC :: post)) := by
    rw [gsub_append_skip (fun c hc t => mFixF2_of_lit (matchLitFrom_none_of_head (hpreF c hc)))]
    rw [gsub_from_spec_id (fun s hs => mFixF2_of_lit hs)
      (mFixF2_at_no_ds (not_dotSlash_isPrefixOf_dd _))
      (fun c hc => (hclean2 c hc).1) hpostF]
  have h3 : gsub mFixI1 (pre ++ (fromQ ++ ((dotDotSlash ++ (dotDotSlash ++ rest)) ++ sqC :: post))) =
      pre ++ (fromQ ++ ((dotDotSlash ++ (dotDotSlash ++ rest)) ++ sqC :: post)) := by
    exact gsub_imp_id_on_fromContent (fun s hs => mFixI1_of_lit hs) hpreI
      (fun c hc => (hclean2 c hc).2.2) hpostI
  have h4 : gsub mFixI2 (pre ++ (fromQ ++ ((dotDotSlash ++ (dotDotSlash ++ rest)) ++ sqC :: post))) =
      pre ++ (fromQ ++ ((dotDotSlash ++ (dotDotSlash ++ rest)) ++ sqC :: post)) := by
    exact gsub_imp_id_on_fromContent (fun s hs => mFixI2_of_lit hs) hpreI
      (fun c hc => (hclean2 c hc).2.2) hpostI
  show gsub mFixI2 (gsub mFixI1 (gsub mFixF2 (gsub mFixF1 _))) = _
  rw [h1, h2, h3, h4]

lemma fixImports_fromContent_ds {pre rest post : List Char}
    (hpre : InertText pre) (hpost : InertText post) (hrest : CleanPath rest)
    (hne : rest ≠ []) :
    fix_imports_rewrite (pre ++ fromSpec (dotSlash ++ rest) ++ post) =
      pre ++ fromSpec (dotDotSlash ++ rest) ++ post := by
  have hpreF : ∀ c ∈ pre, c ≠ 'f' := fun c hc => (hpre c hc).1
  have hpreI : ∀ c ∈ pre, c ≠ 'i' := fun c hc => (hpre c hc).2
  have hpostF : ∀ c ∈ post, c ≠ 'f' := fun c hc => (hpost c hc).1
  have hpostI : ∀ c ∈ post, c ≠ 'i' := fun c hc => (hpost c hc).2
  have hclean0 : CleanPath (dotSlash ++ rest) := cleanPath_append cleanPath_ds hrest
  have hclean2 : CleanPath (dotDotSlash ++ rest) := cleanPath_append cleanPath_dd hrest
  rw [fromSpec_assoc, fromSpec_assoc]
  have h1 : gsub mFixF1 (pre ++ (fromQ ++ ((dotSlash ++ rest) ++ sqC :: post))) =
      pre ++ (fromQ ++ ((dotSlash ++ rest) ++ sqC :: post)) := by
    rw [gsub_append_skip (fun c hc t => mFixF1_of_lit (matchLitFrom_none_of_head (hpreF c hc)))]
    rw [gsub_from_spec_id (fun s hs => mFixF1_of_lit hs)
      (mFixF1_at_no_dd (not_dd_isPrefixOf_ds _))
      (fun c hc => (hclean0 c hc).1) hpostF]
  have h2 : gsub mFixF2 (pre ++ (fromQ ++ ((dotSlash ++ rest) ++ sqC :: post))) =
      pre ++ (fromQ ++ ((dotDotSlash ++ rest) ++ sqC :: post)) := by
    rw [gsub_append_skip (fun c hc t => mFixF2_of_lit (matchLitFrom_none_of_head (hpreF c hc)))]
    rw [gsub_cons_some' consuming_mFixF2
      (mFixF2_at_ds (fun c hc => (hrest c hc).2.1) hne) (by simp [fromQ])]
    rw [gsub_id_of_no_head (fun c hc t => mFixF2_of_lit (matchLitFrom_none_of_head (hpostF c hc)))]
    simp [List.append_assoc]
  have h3 : gsub mFixI1 (pre ++ (fromQ ++ ((dotDotSlash ++ rest) ++ sqC :: post))) =
      pre ++ (fromQ ++ ((dotDotSlash ++ rest) ++ sqC :: post)) := by
    exact gsub_imp_id_on_fromContent (fun s hs => mFixI1_of_lit hs) hpreI
      (fun c hc => (hclean2 c hc).2.2) hpostI
  have h4 : gsub mFixI2 (pre ++ (fromQ ++ ((dotDotSlash ++ rest) ++ sqC :: post))) =
      pre ++ (fromQ ++ ((dotDotSlash ++ rest) ++ sqC :: post)) := by
    exact gsub_imp_id_on_fromContent (fun s hs => mFixI2_of_lit hs) hpreI
      (fun c hc => (hclean2 c hc).2.2) hpostI
  show gsub mFixI2 (gsub mFixI1 (gsub mFixF2 (gsub mFixF1 _))) = _
  rw [h1, h2, h3, h4]

lemma fixImports_impContent_dd {pre rest post : List Char}
    (hpre : InertText pre) (hpost : InertText post) (hrest : CleanPath rest) :
    fix_imports_rewrite (pre ++ impSpec (dotDotSlash ++ rest) ++ post) =
      pre ++ impSpec (dotDotSlash ++ (dotDotSlash ++ rest)) ++ post := by
  have hpreF : ∀ c ∈ pre, c ≠ 'f' := fun c hc => (hpre c hc).1
  have hpreI : ∀ c ∈ pre, c ≠ 'i' := fun c hc => (hpre c hc).2
  have hpostF : ∀ c ∈ post, c ≠ 'f' := fun c hc => (hpost c hc).1
  have hpostI : ∀ c ∈ post, c ≠ 'i' := fun c hc => (hpost c hc).2
  have hpostI' : ∀ c ∈ ')' :: post, c ≠ 'i' := by
    intro c hc
    rcases List.mem_cons.mp hc with h | h
    · subst h; decide
    · exact hpostI c h
  have hclean1 : CleanPath (dotDotSlash ++ rest) := cleanPath_append cleanPath_dd hrest
  have hclean2 : CleanPath (dotDotSlash ++ (dotDotSlash ++ rest)) :=
    cleanPath_append cleanPath_dd hclean1
  rw [impSpec_assoc, impSpec_assoc]
  have h1 : gsub mFixF1 (pre ++ (impQ ++ ((dotDotSlash ++ rest) ++ sqC :: ')' :: post))) =
      pre ++ (impQ ++ ((dotDotSlash ++ rest) ++ sqC :: ')' :: post)) :=
    gsub_from_id_on_impContent (fun s hs => mFixF1_of_lit hs) hpreF
      (fun c hc => (hclean1 c hc).1) hpostF
  have h2 : gsub mFixF2 (pre ++ (impQ ++ ((dotDotSlash ++ rest) ++ sqC :: ')' :: post))) =
      pre ++ (impQ ++ ((dotDotSlash ++ rest) ++ sqC :: ')' :: post)) :=
    gsub_from_id_on_impContent (fun s hs => mFixF2_of_lit hs) hpreF
      (fun c hc => (hclean1 c hc).1) hpostF
  have h3 : gsub mFixI1 (pre ++ (impQ ++ ((dotDotSlash ++ rest) ++ sqC :: ')' :: post))) =
      pre ++ (impQ ++ ((dotDotSlash ++ (dotDotSlash ++ rest)) ++ sqC :: ')' :: post)) := by
    rw [gsub_append_skip (fun c hc t => mFixI1_of_lit (matchLitImp_none_of_head (hpreI c hc)))]
    rw [gsub_cons_some' consuming_mFixI1 mFixI1_at_dd (by simp [impQ])]
    rw [gsub_imp_mixed_id (fun s hs => mFixI1_of_lit hs)
      (fun c hc => (hrest c hc).2.2) hpostI']
    simp [List.append_assoc]
  have h4 : gsub mFixI2 (pre ++ (impQ ++ ((dotDotSlash ++ (dotDotSlash ++ rest)) ++ sqC :: ')' :: post))) =
      pre ++ (impQ ++ ((dotDotSlash ++ (dotDotSlash ++ rest)) ++ sqC :: ')' :: post)) := by
    rw [gsub_append_skip (fun c hc t => mFixI2_of_lit (matchLitImp_none_of_head (hpreI c hc)))]
    rw [gsub_imp_spec_id (fun s hs => mFixI2_of_lit hs)
      (mFixI2_at_no_ds (not_dotSlash_isPrefixOf_dd _))
      (fun c hc => (hclean2 c hc).2.2) hpostI']
  show gsub mFixI2 (gsub mFixI1 (gsub mFixF2 (gsub mFixF1 _))) = _
  rw [h1, h2, h3, h4]

lemma fixImports_impContent_ds {pre rest post : List Char}
    (hpre : InertText pre) (hpost : InertText post) (hrest : CleanPath rest)
    (hne : rest ≠ []) :
    fix_imports_rewrite (pre ++ impSpec (dotSlash ++ rest) ++ post) =
      pre ++ impSpec (dotDotSlash ++ rest) ++ post := by
  have hpreF : ∀ c ∈ pre, c ≠ 'f' := fun c hc => (hpre c hc).1
  have hpreI : ∀ c ∈ pre, c ≠ 'i' := fun c hc => (hpre c hc).2
  have hpostF : ∀ c ∈ post, c ≠ 'f' := fun c hc => (hpost c hc).1
  have hpostI : ∀ c ∈ post, c ≠ 'i' := fun c hc => (hpost c hc).2
  have hpostI' : ∀ c ∈ ')' :: post, c ≠ 'i' := by
    intro c hc
    rcases List.mem_cons.mp hc with h | h
    · subst h; decide
    · exact hpostI c h
  have hclean0 : CleanPath (dotSlash ++ rest) := cleanPath_append cleanPath_ds hrest
  have hclean2 : CleanPath (dotDotSlash ++ rest) := cleanPath_append cleanPath_dd hrest
  rw [impSpec_assoc, impSpec_assoc]
  have h1 : gsub mFixF1 (pre ++ (impQ ++ ((dotSlash ++ rest) ++ sqC :: ')' :: post))) =
      pre ++ (impQ ++ ((dotSlash ++ rest) ++ sqC :: ')' :: post)) :=
    gsub_from_id_on_impContent (fun s hs => mFixF1_of_lit hs) hpreF
      (fun c hc => (hclean0 c hc).1) hpostF
  have h2 : gsub mFixF2 (pre ++ (impQ ++ ((dotSlash ++ rest) ++ sqC :: ')' :: post))) =
      pre ++ (impQ ++ ((dotSlash ++ rest) ++ sqC :: ')' :: post)) :=
    gsub_from_id_on_impContent (fun s hs => mFixF2_of_lit hs) hpreF
      (fun c hc => (hclean0 c hc).1) hpostF
  have h3 : gsub mFixI1 (pre ++ (impQ ++ ((dotSlash ++ rest) ++ sqC :: ')' :: post))) =
      pre ++ (impQ ++ ((dotSlash ++ rest) ++ sqC :: ')' :: post)) := by
    rw [gsub_append_skip (fun c hc t => mFixI1_of_lit (matchLitImp_none_of_head (hpreI c hc)))]
    rw [gsub_imp_spec_id (fun s hs => mFixI1_of_lit hs)
      (mFixI1_at_no_dd (not_dd_isPrefixOf_ds _))
      (fun c hc => (hclean0 c hc).2.2) hpostI']
  have h4 : gsub mFixI2 (pre ++ (impQ ++ ((dotSlash ++ rest) ++ sqC :: ')' :: post))) =
      pre ++ (impQ ++ ((dotDotSlash ++ rest) ++ sqC :: ')' :: post)) := by
    rw [gsub_append_skip (fun c hc t => mFixI2_of_lit (matchLitImp_none_of_head (hpreI c hc)))]
    rw [gsub_cons_some' consuming_mFixI2
      (mFixI2_at_ds (fun c hc => (hrest c hc).2.1) hne) (by simp [impQ])]
    rw [gsub_cons_none (mFixI2_of_lit (matchLitImp_none_of_head (by decide)))]
    rw [gsub_id_of_no_head (fun c hc t => mFixI2_of_lit (matchLitImp_none_of_head (hpostI c hc)))]
    simp [List.append_assoc]
  show gsub mFixI2 (gsub mFixI1 (gsub mFixF2 (gsub mFixF1 _))) = _
  rw [h1, h2, h3, h4]

lemma refactor_fromContent {pre post p : List Char}
    (hpre : InertText pre) (hpost : InertText post) (hp : CleanPath p)
    (hsc : dotSlash.isPrefixOf p = true ∨ dotDotSlash.isPrefixOf p = true) :
    fix_imports_in_content (pre ++ fromSpec p ++ post) =
      pre ++ fromSpec (add_one_level p) ++ post := by
  have hpreF : ∀ c ∈ pre, c ≠ 'f' := fun c hc => (hpre c hc).1
  have hpreI : ∀ c ∈ pre, c ≠ 'i' := fun c hc => (hpre c hc).2
  have hpostF : ∀ c ∈ post, c ≠ 'f' := fun c hc => (hpost c hc).1
  have hpostI : ∀ c ∈ post, c ≠ 'i' := fun c hc => (hpost c hc).2
  obtain ⟨c0, p1, rfl⟩ : ∃ c0 p1, p = c0 :: p1 := by
    rcases p with _ | ⟨c0, p1⟩
    · rcases hsc with h | h <;> simp [dotSlash, dotDotSlash, List.isPrefixOf] at h
    · exact ⟨c0, p1, rfl⟩
  have hc0 : c0 = '.' ∨ c0 = '/' := by
    left
    rcases hsc with h | h
    · rcases List.isPrefixOf_iff_prefix.mp h with ⟨tl, htl⟩
      simp [dotSlash] at htl
      exact htl.1.symm
    · rcases List.isPrefixOf_iff_prefix.mp h with ⟨tl, htl⟩
      simp [dotDotSlash] at htl
      exact htl.1.symm
  have hne : p1 ≠ [] := by
    rcases hsc with h | h
    · rcases List.isPrefixOf_iff_prefix.mp h with ⟨tl, htl⟩
      simp [dotSlash] at htl
      rw [← htl.2]
      simp
    · rcases List.isPrefixOf_iff_prefix.mp h with ⟨tl, htl⟩
      simp [dotDotSlash] at htl
      rw [← htl.2]
      simp
  have hq1 : ∀ c ∈ p1, isQuote c = false := fun c hc => (hp c (by simp [hc])).2.1
  have hcleanA : CleanPath (add_one_level (c0 :: p1)) := cleanPath_add hp
  rw [fromSpec_assoc, fromSpec_assoc]
  have h1 : gsub mFromSpec (pre ++ (fromQ ++ ((c0 :: p1) ++ sqC :: post))) =
      pre ++ (fromQ ++ (add_one_level (c0 :: p1) ++ sqC :: post)) := by
    rw [gsub_append_skip (fun c hc t => mFromSpec_of_lit (matchLitFrom_none_of_head (hpreF c hc)))]
    rw [gsub_cons_some' consuming_mFromSpec (mFromSpec_at_spec hc0 hq1 hne) (by simp [fromQ])]
    rw [gsub_id_of_no_head (fun c hc t => mFromSpec_of_lit (matchLitFrom_none_of_head (hpostF c hc)))]
    rw [fix_import_statement_in_scope hsc, ← add_one_level_eq]
    simp [List.append_assoc]
  have h2 : gsub mImpSpec (pre ++ (fromQ ++ (add_one_level (c0 :: p1) ++ sqC :: post))) =
      pre ++ (fromQ ++ (add_one_level (c0 :: p1) ++ sqC :: post)) :=
    gsub_imp_id_on_fromContent (fun s hs => mImpSpec_of_lit hs) hpreI
      (fun c hc => (hcleanA c hc).2.2) hpostI
  show gsub mImpSpec (gsub mFromSpec _) = _
  rw [h1, h2]

lemma refactor_impContent {pre post p : List Char}
    (hpre : InertText pre) (hpost : InertText post) (hp : CleanPath p)
    (hsc : dotSlash.isPrefixOf p = true ∨ dotDotSlash.isPrefixOf p = true) :
    fix_imports_in_content (pre ++ impSpec p ++ post) =
      pre ++ impSpec (add_one_level p) ++ post := by
  have hpreF : ∀ c ∈ pre, c ≠ 'f' := fun c hc => (hpre c hc).1
  have hpreI : ∀ c ∈ pre, c ≠ 'i' := fun c hc => (hpre c hc).2
  have hpostF : ∀ c ∈ post, c ≠ 'f' := fun c hc => (hpost c hc).1
  have hpostI : ∀ c ∈ post, c ≠ 'i' := fun c hc => (hpost c hc).2
  have hpostI' : ∀ c ∈ ')' :: post, c ≠ 'i' := by
    intro c hc
    rcases List.mem_cons.mp hc with h | h
    · subst h; decide
    · exact hpostI c h
  obtain ⟨c0, p1, rfl⟩ : ∃ c0 p1, p = c0 :: p1 := by
    rcases p with _ | ⟨c0, p1⟩
    · rcases hsc with h | h <;> simp [dotSlash, dotDotSlash, List.isPrefixOf] at h
    · exact ⟨c0, p1, rfl⟩
  have hc0 : c0 = '.' ∨ c0 = '/' := by
    left
    rcases hsc with h | h
    · rcases List.isPrefixOf_iff_prefix.mp h with ⟨tl, htl⟩
      simp [dotSlash] at htl
      exact htl.1.symm
    · rcases List.isPrefixOf_iff_prefix.mp h with ⟨tl, htl⟩
      simp [dotDotSlash] at htl
      exact htl.1.symm
  have hne : p1 ≠ [] := by
    rcases hsc with h | h
    · rcases List.isPrefixOf_iff_prefix.mp h with ⟨tl, htl⟩
      simp [dotSlash] at htl
      rw [← htl.2]
      simp
    · rcases List.isPrefixOf_iff_prefix.mp h with ⟨tl, htl⟩
      simp [dotDotSlash] at htl
      rw [← htl.2]
      simp
  have hq1 : ∀ c ∈ p1, isQuote c = false := fun c hc => (hp c (by simp [hc])).2.1
  have hcleanA : CleanPath (add_one_level (c0 :: p1)) := cleanPath_add hp
  rw [impSpec_assoc, impSpec_assoc]
  have h1 : gsub mFromSpec (pre ++ (impQ ++ ((c0 :: p1) ++ sqC :: ')' :: post))) =
      pre ++ (impQ ++ ((c0 :: p1) ++ sqC :: ')' :: post)) :=
    gsub_from_id_on_impContent (fun s hs => mFromSpec_of_lit hs) hpreF
      (fun c hc => (hp c hc).1) hpostF
  have h2 : gsub mImpSpec (pre ++ (impQ ++ ((c0 :: p1) ++ sqC :: ')' :: post))) =
      pre ++ (impQ ++ (add_one_level (c0 :: p1) ++ sqC :: ')' :: post)) := by
    rw [gsub_append_skip (fun c hc t => mImpSpec_of_lit (matchLitImp_none_of_head (hpreI c hc)))]
    rw [gsub_cons_some' consuming_mImpSpec (mImpSpec_at_spec hc0 hq1 hne) (by simp [impQ])]
    rw [gsub_id_of_no_head (fun c hc t => mImpSpec_of_lit (matchLitImp_none_of_head (hpostI c hc)))]
    rw [fix_import_statement_in_scope hsc, ← add_one_level_eq]
    simp [List.append_assoc]
  show gsub mImpSpec (gsub mFromSpec _) = _
  rw [h1, h2]

lemma remove_one_level_ddRep (k : Nat) (rest : List Char) :
    remove_one_level (ddRep (k + 1) ++ rest) = ddRep k ++ rest := by
  rw [ddRep_append, remove_one_level_dd]

lemma over_fromContent_dd {pre post rest : List Char} {k : Nat}
    (hpre : InertText pre) (hpost : InertText post) (hrest : CleanPath rest)
    (hnd : dotDotSlash.isPrefixOf rest = false) :
    fix_overcorrection_rewrite (pre ++ fromSpec (ddRep (k + 1) ++ rest) ++ post) =
      pre ++ fromSpec (ddRep k ++ rest) ++ post := by
  have hpreF : ∀ c ∈ pre, c ≠ 'f' := fun c hc => (hpre c hc).1
  have hpreI : ∀ c ∈ pre, c ≠ 'i' := fun c hc => (hpre c hc).2
  have hpostF : ∀ c ∈ post, c ≠ 'f' := fun c hc => (hpost c hc).1
  have hpostI : ∀ c ∈ post, c ≠ 'i' := fun c hc => (hpost c hc).2
  have hcleanK : CleanPath (ddRep k ++ rest) :=
    cleanPath_append (cleanPath_ddRep k) hrest
  rw [fromSpec_assoc, fromSpec_assoc]
  have h1 : gsub mOverF (pre ++ (fromQ ++ ((ddRep (k + 1) ++ rest) ++ sqC :: post))) =
      pre ++ (fromQ ++ ((ddRep k ++ rest) ++ sqC :: post)) := by
    rw [gsub_append_skip (fun c hc t => mOverF_of_lit (matchLitFrom_none_of_head (hpreF c hc)))]
    rw [gsub_cons_some' consuming_mOverF (mOverF_at_dd hnd) (by simp [fromQ])]
    rw [gsub_from_mixed_id (fun s hs => mOverF_of_lit hs)
      (fun c hc => (hrest c hc).1) hpostF]
    simp [List.append_assoc]
  have h2 : gsub mOverI (pre ++ (fromQ ++ ((ddRep k ++ rest) ++ sqC :: post))) =
      pre ++ (fromQ ++ ((ddRep k ++ rest) ++ sqC :: post)) :=
    gsub_imp_id_on_fromContent (fun s hs => mOverI_of_lit hs) hpreI
      (fun c hc => (hcleanK c hc).2.2) hpostI
  show gsub mOverI (gsub mOverF _) = _
  rw [h1, h2]

lemma over_fromContent_nodd {pre post p : List Char}
    (hpre : InertText pre) (hpost : InertText post) (hp : CleanPath p)
    (hnd : dotDotSlash.isPrefixOf p = false) :
    fix_overcorrection_rewrite (pre ++ fromSpec p ++ post) =
      pre ++ fromSpec p ++ post := by
  have hpreF : ∀ c ∈ pre, c ≠ 'f' := fun c hc => (hpre c hc).1
  have hpreI : ∀ c ∈ pre, c ≠ 'i' := fun c hc => (hpre c hc).2
  have hpostF : ∀ c ∈ post, c ≠ 'f' := fun c hc => (hpost c hc).1
  have hpostI : ∀ c ∈ post, c ≠ 'i' := fun c hc => (hpost c hc).2
  rw [fromSpec_assoc]
  have h1 : gsub mOverF (pre ++ (fromQ ++ (p ++ sqC :: post))) =
      pre ++ (fromQ ++ (p ++ sqC :: post)) := by
    rw [gsub_append_skip (fun c hc t => mOverF_of_lit (matchLitFrom_none_of_head (hpreF c hc)))]
    rw [gsub_from_spec_id (fun s hs => mOverF_of_lit hs) (mOverF_at_no_dd hnd)
      (fun c hc => (hp c hc).1) hpostF]
  have h2 : gsub mOverI (pre ++ (fromQ ++ (p ++ sqC :: post))) =
      pre ++ (fromQ ++ (p ++ sqC :: post)) :=
    gsub_imp_id_on_fromContent (fun s hs => mOverI_of_lit hs) hpreI
      (fun c hc => (hp c hc).2.2) hpostI
  show gsub mOverI (gsub mOverF _) = _
  rw [h1, h2]

lemma over_impContent_dd {pre post rest : List Char} {k : Nat}
    (hpre : InertText pre) (hpost : InertText post) (hrest : CleanPath rest)
    (hnd : dotDotSlash.isPrefixOf rest = false) :
    fix_overcorrection_rewrite (pre ++ impSpec (ddRep (k + 1) ++ rest) ++ post) =
      pre ++ impSpec (ddRep k ++ rest) ++ post := by
  have hpreF : ∀ c ∈ pre, c ≠ 'f' := fun c hc => (hpre c hc).1
  have hpreI : ∀ c ∈ pre, c ≠ 'i' := fun c hc => (hpre c hc).2
  have hpostF : ∀ c ∈ post, c ≠ 'f' := fun c hc => (hpost c hc).1
  have hpostI : ∀ c ∈ post, c ≠ 'i' := fun c hc => (hpost c hc).2
  have hpostI' : ∀ c ∈ ')' :: post, c ≠ 'i' := by
    intro c hc
    rcases List.mem_cons.mp hc with h | h
    · subst h; decide
    · exact hpostI c h
  have hcleanK1 : CleanPath (ddRep (k + 1) ++ rest) :=
    cleanPath_append (cleanPath_ddRep (k + 1)) hrest
  rw [impSpec_assoc, impSpec_assoc]
  have h1 : gsub mOverF (pre ++ (impQ ++ ((ddRep (k + 1) ++ rest) ++ sqC :: ')' :: post))) =
      pre ++ (impQ ++ ((ddRep (k + 1) ++ rest) ++ sqC :: ')' :: post)) :=
    gsub_from_id_on_impContent (fun s hs => mOverF_of_lit hs) hpreF
      (fun c hc => (hcleanK1 c hc).1) hpostF
  have h2 : gsub mOverI (pre ++ (impQ ++ ((ddRep (k + 1) ++ rest) ++ sqC :: ')' :: post))) =
      pre ++ (impQ ++ ((ddRep k ++ rest) ++ sqC :: ')' :: post)) := by
    rw [gsub_append_skip (fun c hc t => mOverI_of_lit (matchLitImp_none_of_head (hpreI c hc)))]
    rw [gsub_cons_some' consuming_mOverI (mOverI_at_dd hnd) (by simp [impQ])]
    rw [gsub_imp_mixed_id (fun s hs => mOverI_of_lit hs)
      (fun c hc => (hrest c hc).2.2) hpostI']
    simp [List.append_assoc]
  show gsub mOverI (gsub mOverF _) = _
  rw [h1, h2]

lemma over_impContent_nodd {pre post p : List Char}
    (hpre : InertText pre) (hpost : InertText post) (hp : CleanPath p)
    (hnd : dotDotSlash.isPrefixOf p = false) :
    fix_overcorrection_rewrite (pre ++ impSpec p ++ post) =
      pre ++ impSpec p ++ post := by
  have hpreF : ∀ c ∈ pre, c ≠ 'f' := fun c hc => (hpre c hc).1
  have hpreI : ∀ c ∈ pre, c ≠ 'i' := fun c hc => (hpre c hc).2
  have hpostF : ∀ c ∈ post, c ≠ 'f' := fun c hc => (hpost c hc).1
  have hpostI : ∀ c ∈ post, c ≠ 'i' := fun c hc => (hpost c hc).2
  have hpostI' : ∀ c ∈ ')' :: post, c ≠ 'i' := by
    intro c hc
    rcases List.mem_cons.mp hc with h | h
    · subst h; decide
    · exact hpostI c h
  rw [impSpec_assoc]
  have h1 : gsub mOverF (pre ++ (impQ ++ (p ++ sqC :: ')' :: post))) =
      pre ++ (impQ ++ (p ++ sqC :: ')' :: post)) :=
    gsub_from_id_on_impContent (fun s hs => mOverF_of_lit hs) hpreF
      (fun c hc => (hp c hc).1) hpostF
  have h2 : gsub mOverI (pre ++ (impQ ++ (p ++ sqC :: ')' :: post))) =
      pre ++ (impQ ++ (p ++ sqC :: ')' :: post)) := by
    rw [gsub_append_skip (fun c hc t => mOverI_of_lit (matchLitImp_none_of_head (hpreI c hc)))]
    rw [gsub_imp_spec_id (fun s hs => mOverI_of_lit hs) (mOverI_at_no_dd hnd)
      (fun c hc => (hp c hc).2.2) hpostI']
  show gsub mOverI (gsub mOverF _) = _
  rw [h1, h2]

/-!  ### `re.search` and `str.replace` of the smart script -/

lemma searchFromSpec_skip {pre rest : List Char} (hpre : ∀ c ∈ pre, c ≠ 'f') :
    searchFromSpec (pre ++ rest) = searchFromSpec rest := by
  induction pre with
  | nil => rfl
  | cons c pre' ih =>
    rw [List.cons_append]
    simp only [searchFromSpec, matchLitFrom_none_of_head (hpre c (by simp))]
    exact ih (fun d hd => hpre d (by simp [hd]))

lemma searchImpSpec_skip {pre rest : List Char} (hpre : ∀ c ∈ pre, c ≠ 'i') :
    searchImpSpec (pre ++ rest) = searchImpSpec rest := by
  induction pre with
  | nil => rfl
  | cons c pre' ih =>
    rw [List.cons_append]
    simp only [searchImpSpec, matchLitImp_none_of_head (hpre c (by simp))]
    exact ih (fun d hd => hpre d (by simp [hd]))

lemma searchFromSpec_none_inert {v : List Char} (hv : ∀ c ∈ v, c ≠ 'f') :
    searchFromSpec v = none := by
  induction v with
  | nil => rfl
  | cons c v' ih =>
    simp only [searchFromSpec, matchLitFrom_none_of_head (hv c (by simp))]
    exact ih (fun d hd => hv d (by simp [hd]))

lemma searchImpSpec_none_inert {v : List Char} (hv : ∀ c ∈ v, c ≠ 'i') :
    searchImpSpec v = none := by
  induction v with
  | nil => rfl
  | cons c v' ih =>
    simp only [searchImpSpec, matchLitImp_none_of_head (hv c (by simp))]
    exact ih (fun d hd => hv d (by simp [hd]))

lemma searchFromSpec_none_mixed {u v : List Char} (hu : ∀ c ∈ u, pyWS c = false)
    (hv : ∀ c ∈ v, c ≠ 'f') : searchFromSpec (u ++ sqC :: v) = none := by
  induction u with
  | nil =>
    rw [List.nil_append]
    simp only [searchFromSpec, matchLitFrom_none_of_head (show sqC ≠ 'f' by decide)]
    exact searchFromSpec_none_inert hv
  | cons c u' ih =>
    rw [List.cons_append]
    simp only [searchFromSpec,
      show matchLitFrom (c :: (u' ++ sqC :: v)) = none from by
        rw [show c :: (u' ++ sqC :: v) = (c :: u') ++ sqC :: v from rfl]
        exact matchLitFrom_none_mixed hu]
    exact ih (fun d hd => hu d (by simp [hd]))

lemma searchImpSpec_none_mixed {u v : List Char} (hu : ∀ c ∈ u, c ≠ '(')
    (hv : ∀ c ∈ v, c ≠ 'i') : searchImpSpec (u ++ sqC :: v) = none := by
  induction u with
  | nil =>
    rw [List.nil_append]
    simp only [searchImpSpec, matchLitImp_none_of_head (show sqC ≠ 'i' by decide)]
    exact searchImpSpec_none_inert hv
  | cons c u' ih =>
    rw [List.cons_append]
    simp only [searchImpSpec,
      show matchLitImp (c :: (u' ++ sqC :: v)) = none from by
        rw [show c :: (u' ++ sqC :: v) = (c :: u') ++ sqC :: v from rfl]
        exact matchLitImp_none_mixed hu]
    exact ih (fun d hd => hu d (by simp [hd]))

lemma searchFromSpec_at_spec {c0 : Char} {p1 post : List Char} (hc : c0 = '.' ∨ c0 = '/')
    (hp : ∀ c ∈ p1, isQuote c = false) (hne : p1 ≠ []) :
    searchFromSpec (fromQ ++ ((c0 :: p1) ++ sqC :: post)) = some (fromQ, c0 :: p1, [sqC]) := by
  have hsh : fromQ ++ ((c0 :: p1) ++ sqC :: post) =
      'f' :: (['r', 'o', 'm', ' ', sqC] ++ ((c0 :: p1) ++ sqC :: post)) := by
    simp [fromQ]
  rw [hsh]
  simp only [searchFromSpec]
  rw [show ('f' :: (['r', 'o', 'm', ' ', sqC] ++ ((c0 :: p1) ++ sqC :: post))) =
    fromQ ++ ((c0 :: p1) ++ sqC :: post) from by simp [fromQ]]
  simp only [matchLitFrom_fromQ, matchSpecBody_clean hc hp hne]

lemma searchImpSpec_at_spec {c0 : Char} {p1 post : List Char} (hc : c0 = '.' ∨ c0 = '/')
    (hp : ∀ c ∈ p1, isQuote c = false) (hne : p1 ≠ []) :
    searchImpSpec (impQ ++ ((c0 :: p1) ++ sqC :: ')' :: post)) =
      some (impQ, c0 :: p1, [sqC, ')']) := by
  have hsh : impQ ++ ((c0 :: p1) ++ sqC :: ')' :: post) =
      'i' :: (['m', 'p', 'o', 'r', 't', '(', sqC] ++ ((c0 :: p1) ++ sqC :: ')' :: post)) := by
    simp [impQ]
  rw [hsh]
  simp only [searchImpSpec]
  rw [show ('i' :: (['m', 'p', 'o', 'r', 't', '(', sqC] ++ ((c0 :: p1) ++ sqC :: ')' :: post))) =
    impQ ++ ((c0 :: p1) ++ sqC :: ')' :: post) from by simp [impQ]]
  simp only [matchLitImp_impQ, matchSpecBodyParen_clean hc hp hne]

lemma mRepl_none_head {h0 : Char} {old' new : List Char} {c : Char} {t : List Char}
    (h : c ≠ h0) : mRepl (h0 :: old') new (c :: t) = none := by
  unfold mRepl
  rw [if_neg]
  rintro ⟨-, hp⟩
  simp only [List.isPrefixOf, Bool.and_eq_true, beq_iff_eq] at hp
  exact h hp.1.symm

lemma mRepl_at (old new post : List Char) (hone : old ≠ []) :
    mRepl old new (old ++ post) = some (new, post) := by
  unfold mRepl
  rw [if_pos ⟨hone, List.isPrefixOf_iff_prefix.mpr (List.prefix_append old post)⟩]
  rw [List.drop_left]

/-- `str.replace` on a content holding one occurrence of `old`, whose
first character occurs nowhere else. -/
lemma pyReplace_at {pre post : List Char} (h0 : Char) (old' new : List Char)
    (hpre : ∀ c ∈ pre, c ≠ h0) (hpost : ∀ c ∈ post, c ≠ h0) :
    pyReplace (pre ++ ((h0 :: old') ++ post)) (h0 :: old') new = pre ++ new ++ post := by
  unfold pyReplace
  rw [gsub_append_skip (fun c hc t => mRepl_none_head (hpre c hc))]
  rw [gsub_cons_some' (consuming_mRepl _ _) (mRepl_at (h0 :: old') new post (by simp))
    (by simp)]
  rw [gsub_id_of_no_head (fun c hc t => mRepl_none_head (hpost c hc))]
  simp [List.append_assoc]

lemma in_scope_shape {p : List Char}
    (hsc : dotSlash.isPrefixOf p = true ∨ dotDotSlash.isPrefixOf p = true) :
    ∃ c0 p1, p = c0 :: p1 ∧ (c0 = '.' ∨ c0 = '/') ∧ p1 ≠ [] := by
  rcases p with _ | ⟨c0, p1⟩
  · rcases hsc with h | h <;> simp [dotSlash, dotDotSlash, List.isPrefixOf] at h
  · refine ⟨c0, p1, rfl, ?_, ?_⟩
    · left
      rcases hsc with h | h
      · rcases List.isPrefixOf_iff_prefix.mp h with ⟨tl, htl⟩
        simp [dotSlash] at htl
        exact htl.1.symm
      · rcases List.isPrefixOf_iff_prefix.mp h with ⟨tl, htl⟩
        simp [dotDotSlash] at htl
        exact htl.1.symm
    · rcases hsc with h | h
      · rcases List.isPrefixOf_iff_prefix.mp h with ⟨tl, htl⟩
        simp [dotSlash] at htl
        rw [← htl.2]
        simp
      · rcases List.isPrefixOf_iff_prefix.mp h with ⟨tl, htl⟩
        simp [dotDotSlash] at htl
        rw [← htl.2]
        simp

lemma smart_line_fromContent {pre post p : List Char}
    (hpre : InertText pre) (hpost : InertText post) (hp : CleanPath p)
    (hsc : dotSlash.isPrefixOf p = true ∨ dotDotSlash.isPrefixOf p = true) :
    smart_fix_line (pre ++ fromSpec p ++ post) =
      pre ++ fromSpec (add_one_level p) ++ post := by
  have hpreF : ∀ c ∈ pre, c ≠ 'f' := fun c hc => (hpre c hc).1
  have hpreI : ∀ c ∈ pre, c ≠ 'i' := fun c hc => (hpre c hc).2
  have hpostF : ∀ c ∈ post, c ≠ 'f' := fun c hc => (hpost c hc).1
  have hpostI : ∀ c ∈ post, c ≠ 'i' := fun c hc => (hpost c hc).2
  obtain ⟨c0, p1, rfl, hc0, hne⟩ := in_scope_shape hsc
  have hq1 : ∀ c ∈ p1, isQuote c = false := fun c hc => (hp c (by simp [hc])).2.1
  have hcleanA : CleanPath (add_one_level (c0 :: p1)) := cleanPath_add hp
  have hsearch : searchFromSpec (pre ++ fromSpec (c0 :: p1) ++ post) =
      some (fromQ, c0 :: p1, [sqC]) := by
    rw [fromSpec_assoc, searchFromSpec_skip hpreF, searchFromSpec_at_spec hc0 hq1 hne]
  have hrepl : pyReplace (pre ++ fromSpec (c0 :: p1) ++ post)
      (fromQ ++ (c0 :: p1) ++ [sqC]) (fromQ ++ add_one_level (c0 :: p1) ++ [sqC]) =
      pre ++ (fromQ ++ add_one_level (c0 :: p1) ++ [sqC]) ++ post := by
    rw [show pre ++ fromSpec (c0 :: p1) ++ post =
      pre ++ (('f' :: (['r', 'o', 'm', ' ', sqC] ++ (c0 :: p1) ++ [sqC])) ++ post) from by
      simp [fromSpec, fromQ]]
    rw [show fromQ ++ (c0 :: p1) ++ [sqC] =
      'f' :: (['r', 'o', 'm', ' ', sqC] ++ (c0 :: p1) ++ [sqC]) from by simp [fromQ]]
    rw [pyReplace_at 'f' _ _ hpreF hpostF]
  have hsearch2 : searchImpSpec (pre ++ (fromQ ++ add_one_level (c0 :: p1) ++ [sqC]) ++ post) =
      none := by
    rw [show pre ++ (fromQ ++ add_one_level (c0 :: p1) ++ [sqC]) ++ post =
      (pre ++ ['f', 'r', 'o', 'm', ' ']) ++ sqC :: (add_one_level (c0 :: p1) ++ sqC :: post)
      from by simp [fromQ]]
    rw [searchImpSpec_skip (by
      intro c hc
      rcases List.mem_append.mp hc with h | h
      · exact hpreI c h
      · simp only [List.mem_cons, List.not_mem_nil, or_false] at h
        rcases h with h | h | h | h | h <;> subst h <;> decide)]
    simp only [searchImpSpec, matchLitImp_none_of_head (show sqC ≠ 'i' by decide)]
    exact searchImpSpec_none_mixed (fun c hc => (hcleanA c hc).2.2) hpostI
  unfold smart_fix_line
  simp only [hsearch, hrepl, hsearch2]
  simp [fromSpec, List.append_assoc]


lemma smart_line_impContent {pre post p : List Char}
    (hpre : InertText pre) (hpost : InertText post) (hp : CleanPath p)
    (hsc : dotSlash.isPrefixOf p = true ∨ dotDotSlash.isPrefixOf p = true) :
    smart_fix_line (pre ++ impSpec p ++ post) =
      pre ++ impSpec (add_one_level p) ++ post := by
  have hpreF : ∀ c ∈ pre, c ≠ 'f' := fun c hc => (hpre c hc).1
  have hpreI : ∀ c ∈ pre, c ≠ 'i' := fun c hc => (hpre c hc).2
  have hpostF : ∀ c ∈ post, c ≠ 'f' := fun c hc => (hpost c hc).1
  have hpostI : ∀ c ∈ post, c ≠ 'i' := fun c hc => (hpost c hc).2
  obtain ⟨c0, p1, rfl, hc0, hne⟩ := in_scope_shape hsc
  have hq1 : ∀ c ∈ p1, isQuote c = false := fun c hc => (hp c (by simp [hc])).2.1
  have hsearch : searchFromSpec (pre ++ impSpec (c0 :: p1) ++ post) = none := by
    rw [show pre ++ impSpec (c0 :: p1) ++ post =
      (pre ++ ['i', 'm', 'p', 'o', 'r', 't', '(']) ++ sqC :: ((c0 :: p1) ++ sqC :: ')' :: post)
      from by simp [impSpec, impQ]]
    rw [searchFromSpec_skip (by
      intro c hc
      rcases List.mem_append.mp hc with h | h
      · exact hpreF c h
      · simp only [List.mem_cons, List.not_mem_nil, or_false] at h
        rcases h with h | h | h | h | h | h | h <;> subst h <;> decide)]
    simp only [searchFromSpec, matchLitFrom_none_of_head (show sqC ≠ 'f' by decide)]
    exact searchFromSpec_none_mixed (fun c hc => (hp c hc).1) (by
      intro c hc
      rcases List.mem_cons.mp hc with h | h
      · subst h; decide
      · exact hpostF c h)
  have hsearchI : searchImpSpec (pre ++ impSpec (c0 :: p1) ++ post) =
      some (impQ, c0 :: p1, [sqC, ')']) := by
    rw [impSpec_assoc, searchImpSpec_skip hpreI, searchImpSpec_at_spec hc0 hq1 hne]
  have hrepl : pyReplace (pre ++ impSpec (c0 :: p1) ++ post)
      (impQ ++ (c0 :: p1) ++ [sqC, ')']) (impQ ++ add_one_level (c0 :: p1) ++ [sqC, ')']) =
      pre ++ (impQ ++ add_one_level (c0 :: p1) ++ [sqC, ')']) ++ post := by
    rw [show pre ++ impSpec (c0 :: p1) ++ post =
      pre ++ (('i' :: (['m', 'p', 'o', 'r', 't', '(', sqC] ++ (c0 :: p1) ++ [sqC, ')'])) ++ post)
      from by simp [impSpec, impQ]]
    rw [show impQ ++ (c0 :: p1) ++ [sqC, ')'] =
      'i' :: (['m', 'p', 'o', 'r', 't', '(', sqC] ++ (c0 :: p1) ++ [sqC, ')'])
      from by simp [impQ]]
    rw [pyReplace_at 'i' _ _ hpreI hpostI]
  unfold smart_fix_line
  simp only [hsearch, hsearchI, hrepl]
  simp [impSpec, List.append_assoc]

lemma pyReadLines_single {s : List Char} (hs : s ≠ [])
    (hnl : ∀ c ∈ s, c ≠ Char.ofNat 10) : pyReadLines s = [s] := by
  induction s with
  | nil => exact absurd rfl hs
  | cons c rest ih =>
    simp only [pyReadLines, if_neg (hnl c (by simp))]
    cases hr : rest with
    | nil => rfl
    | cons d rest' =>
      rw [← hr, ih (by rw [hr]; simp) (fun d hd => hnl d (by simp [hd]))]

/-- On a single-line content the smart rewriter is its line body. -/
lemma smart_content_single {s : List Char} (hs : s ≠ [])
    (hnl : ∀ c ∈ s, c ≠ Char.ofNat 10) :
    smart_fix_content s = smart_fix_line s := by
  unfold smart_fix_content
  rw [pyReadLines_single hs hnl]
  simp

lemma munchDD_no_dd (p : List Char) : dotDotSlash.isPrefixOf (munchDD p).2 = false := by
  have H : ∀ n p, List.length p ≤ n → dotDotSlash.isPrefixOf (munchDD p).2 = false := by
    intro n
    induction n with
    | zero =>
      intro p hp
      have : p = [] := List.length_eq_zero.mp (Nat.le_zero.mp hp)
      subst this
      rfl
    | succ n ih =>
      intro p hp
      by_cases h : dotDotSlash.isPrefixOf p = true
      · obtain ⟨tl, htl⟩ := List.isPrefixOf_iff_prefix.mp h
        subst htl
        rw [munchDD_dd]
        exact ih tl (by simp [dotDotSlash] at hp ⊢; omega)
      · rw [munchDD_eq_self (by simp [h])]
        simp [h]
  exact H p.length p le_rfl

lemma no_newline_of_canonical {pre post p : List Char}
    (hprenl : ∀ c ∈ pre, c ≠ Char.ofNat 10) (hpostnl : ∀ c ∈ post, c ≠ Char.ofNat 10)
    (hp : CleanPath p) : ∀ c ∈ pre ++ fromSpec p ++ post, c ≠ Char.ofNat 10 := by
  intro c hc hnl
  subst hnl
  rcases List.mem_append.mp hc with hc1 | hc1
  · rcases List.mem_append.mp hc1 with hc2 | hc2
    · exact hprenl _ hc2 rfl
    · have hc3 : Char.ofNat 10 ∈ fromQ ++ p ++ [sqC] := hc2
      rcases List.mem_append.mp hc3 with h1 | h1
      · rcases List.mem_append.mp h1 with h2 | h2
        · exact absurd h2 (by decide)
        · exact absurd (hp _ h2).1 (by decide)
      · exact absurd h1 (by decide)
  · exact hpostnl _ hc1 rfl

lemma no_newline_of_canonical_imp {pre post p : List Char}
    (hprenl : ∀ c ∈ pre, c ≠ Char.ofNat 10) (hpostnl : ∀ c ∈ post, c ≠ Char.ofNat 10)
    (hp : CleanPath p) : ∀ c ∈ pre ++ impSpec p ++ post, c ≠ Char.ofNat 10 := by
  intro c hc hnl
  subst hnl
  rcases List.mem_append.mp hc with hc1 | hc1
  · rcases List.mem_append.mp hc1 with hc2 | hc2
    · exact hprenl _ hc2 rfl
    · have hc3 : Char.ofNat 10 ∈ impQ ++ p ++ [sqC, ')'] := hc2
      rcases List.mem_append.mp hc3 with h1 | h1
      · rcases List.mem_append.mp h1 with h2 | h2
        · exact absurd h2 (by decide)
        · exact absurd (hp _ h2).1 (by decide)
      · exact absurd h1 (by decide)
  · exact hpostnl _ hc1 rfl

lemma canonical_ne_nil {pre post p : List Char} : pre ++ fromSpec p ++ post ≠ [] := by
  simp [fromSpec, fromQ]

lemma canonical_imp_ne_nil {pre post p : List Char} : pre ++ impSpec p ++ post ≠ [] := by
  simp [impSpec, impQ]

/-- C5.  The three content rewrites are not the same function: on a line
with two static specifiers the smart script adjusts only the first, while
fix-imports.py and refactor-complete.py adjust both. -/
theorem c5_rewriters_differ_cex :
    smart_fix_content lineTwoSpecs = lineTwoSpecsSmart ∧
    fix_imports_in_content lineTwoSpecs = lineTwoSpecsBoth ∧
    fix_imports_rewrite lineTwoSpecs = lineTwoSpecsBoth ∧
    smart_fix_content lineTwoSpecs ≠ fix_imports_in_content lineTwoSpecs := by
  refine ⟨by decide, by decide, by decide, by decide⟩

/-- C5 (amended).  The three rewrites do agree on single-line contents
holding exactly one well-formed specifier — static or dynamic — whose
path is in scope, not exactly `./`, and free of whitespace, quote and
parenthesis characters, with the surrounding text free of `f`, `i` and
newline characters; each produces the `+1`-adjusted content.  (In
general they differ: fix-imports-smart.py adjusts only the first match
of each pattern per line, and the scripts also disagree on degenerate
specifiers such as `from './'` or unterminated ones.) -/
theorem c5_rewriters_agree_amended (pre post p : List Char)
    (hpre : InertText pre) (hpost : InertText post)
    (hprenl : ∀ c ∈ pre, c ≠ Char.ofNat 10) (hpostnl : ∀ c ∈ post, c ≠ Char.ofNat 10)
    (hp : CleanPath p) (hnd : p ≠ dotSlash)
    (hsc : dotSlash.isPrefixOf p = true ∨ dotDotSlash.isPrefixOf p = true) :
    (fix_imports_in_content (pre ++ fromSpec p ++ post) =
        pre ++ fromSpec (add_one_level p) ++ post ∧
      fix_imports_rewrite (pre ++ fromSpec p ++ post) =
        pre ++ fromSpec (add_one_level p) ++ post ∧
      smart_fix_content (pre ++ fromSpec p ++ post) =
        pre ++ fromSpec (add_one_level p) ++ post) ∧
    (fix_imports_in_content (pre ++ impSpec p ++ post) =
        pre ++ impSpec (add_one_level p) ++ post ∧
      fix_imports_rewrite (pre ++ impSpec p ++ post) =
        pre ++ impSpec (add_one_level p) ++ post ∧
      smart_fix_content (pre ++ impSpec p ++ post) =
        pre ++ impSpec (add_one_level p) ++ post) := by
  have hfixF : fix_imports_rewrite (pre ++ fromSpec p ++ post) =
      pre ++ fromSpec (add_one_level p) ++ post := by
    rcases hsc with h | h
    · obtain ⟨rest, hrest⟩ := List.isPrefixOf_iff_prefix.mp h
      subst hrest
      have hrne : rest ≠ [] := by
        intro hr
        subst hr
        simp at hnd
      rw [add_one_level_dotSlash]
      exact fixImports_fromContent_ds hpre hpost
        (fun c hc => hp c (by simp [hc])) hrne
    · obtain ⟨rest, hrest⟩ := List.isPrefixOf_iff_prefix.mp h
      subst hrest
      rw [add_one_level_dotDotSlash]
      exact fixImports_fromContent_dd hpre hpost (fun c hc => hp c (by simp [hc]))
  have hfixI : fix_imports_rewrite (pre ++ impSpec p ++ post) =
      pre ++ impSpec (add_one_level p) ++ post := by
    rcases hsc with h | h
    · obtain ⟨rest, hrest⟩ := List.isPrefixOf_iff_prefix.mp h
      subst hrest
      have hrne : rest ≠ [] := by
        intro hr
        subst hr
        simp at hnd
      rw [add_one_level_dotSlash]
      exact fixImports_impContent_ds hpre hpost
        (fun c hc => hp c (by simp [hc])) hrne
    · obtain ⟨rest, hrest⟩ := List.isPrefixOf_iff_prefix.mp h
      subst hrest
      rw [add_one_level_dotDotSlash]
      exact fixImports_impContent_dd hpre hpost (fun c hc => hp c (by simp [hc]))
  refine ⟨⟨refactor_fromContent hpre hpost hp hsc, hfixF, ?_⟩,
    refactor_impContent hpre hpost hp hsc, hfixI, ?_⟩
  · rw [smart_content_single canonical_ne_nil
      (no_newline_of_canonical hprenl hpostnl hp)]
    exact smart_line_fromContent hpre hpost hp hsc
  · rw [smart_content_single canonical_imp_ne_nil
      (no_newline_of_canonical_imp hprenl hpostnl hp)]
    exact smart_line_impContent hpre hpost hp hsc

/-- Witness for C5 (amended): the static form at path `./u` with empty
surroundings. -/
theorem c5_rewriters_agree_amended_witness :
    fix_imports_in_content ([] ++ fromSpec ['.', '/', 'u'] ++ []) =
      [] ++ fromSpec (add_one_level ['.', '/', 'u']) ++ [] :=
  ((c5_rewriters_agree_amended [] [] ['.', '/', 'u']
    (fun c hc => absurd hc (List.not_mem_nil c))
    (fun c hc => absurd hc (List.not_mem_nil c))
    (fun c hc => absurd hc (List.not_mem_nil c))
    (fun c hc => absurd hc (List.not_mem_nil c))
    (by
      intro c hc
      simp only [List.mem_cons, List.not_mem_nil, or_false] at hc
      rcases hc with h | h | h <;> subst h <;>
        refine ⟨by decide, by decide, by decide⟩)
    (by decide) (Or.inl (by decide))).1).1

/-- C7.  On every matched specifier — static or dynamic — the
overcorrection repair removes exactly one leading `../` segment when the
path has one (the result is the path minus its first `../`), and leaves
the specifier untouched when the path has no leading `../` segment
(including `./`-prefixed and bare paths). -/
theorem c7_overcorrection_removes_one (pre post p : List Char)
    (hpre : InertText pre) (hpost : InertText post) (hp : CleanPath p) :
    fix_overcorrection_rewrite (pre ++ fromSpec p ++ post) =
      pre ++ fromSpec (remove_one_level p) ++ post ∧
    fix_overcorrection_rewrite (pre ++ impSpec p ++ post) =
      pre ++ impSpec (remove_one_level p) ++ post ∧
    (dotDotSlash.isPrefixOf p = true → p = dotDotSlash ++ remove_one_level p) ∧
    (dotDotSlash.isPrefixOf p = false → remove_one_level p = p) := by
  rcases hmk : munchDD p with ⟨k0, rest⟩
  have hmd := munchDD_decomp p
  rw [hmk] at hmd
  have hnd := munchDD_no_dd p
  rw [hmk] at hnd
  have hrestClean : CleanPath rest := fun c hc =>
    hp c (by rw [hmd]; exact List.mem_append_right _ hc)
  subst hmd
  cases k0 with
  | zero =>
    have hz : ddRep 0 ++ rest = rest := by simp [ddRep]
    rw [hz] at hp ⊢
    refine ⟨?_, ?_, ?_, fun _ => remove_one_level_of_no_dd rest hnd⟩
    · rw [remove_one_level_of_no_dd rest hnd]
      exact over_fromContent_nodd hpre hpost hp hnd
    · rw [remove_one_level_of_no_dd rest hnd]
      exact over_impContent_nodd hpre hpost hp hnd
    · intro hdd
      rw [hnd] at hdd
      exact absurd hdd (by decide)
  | succ k =>
    have hrm : remove_one_level (ddRep (k + 1) ++ rest) = ddRep k ++ rest :=
      remove_one_level_ddRep k rest
    refine ⟨?_, ?_, ?_, ?_⟩
    · rw [hrm]
      exact over_fromContent_dd hpre hpost hrestClean hnd
    · rw [hrm]
      exact over_impContent_dd hpre hpost hrestClean hnd
    · intro _
      rw [hrm, ddRep_append]
    · intro hdd
      rw [ddRep_append, dotDotSlash_isPrefixOf_append] at hdd
      exact absurd hdd (by decide)

/-- Witness for C7: the static form at path `../a` (one segment removed)
with empty surroundings. -/
theorem c7_overcorrection_removes_one_witness :
    fix_overcorrection_rewrite ([] ++ fromSpec ['.', '.', '/', 'a'] ++ []) =
      [] ++ fromSpec (remove_one_level ['.', '.', '/', 'a']) ++ [] :=
  (c7_overcorrection_removes_one [] [] ['.', '.', '/', 'a']
    (fun c hc => absurd hc (List.not_mem_nil c))
    (fun c hc => absurd hc (List.not_mem_nil c))
    (by
      intro c hc
      simp only [List.mem_cons, List.not_mem_nil, or_false] at hc
      rcases hc with h | h | h | h <;> subst h <;>
        refine ⟨by decide, by decide, by decide⟩)).1

/-!  ## `changed` reporting of fix-imports.py (claim C8)

Each of the four substitutions of fix-imports.py strictly lengthens the
text whenever it fires (`\\1../\\2` inserts three characters, `\\1../\\3`
replaces `./` by `../`), so the content changes iff some pattern matches
somewhere. -/

lemma growing_mFixF1 : Growing mFixF1 := by
  intro s r t h
  unfold mFixF1 at h
  cases hl : matchLitFrom s with
  | none => simp [hl] at h
  | some g1r =>
    obtain ⟨g1, rr⟩ := g1r
    simp only [hl] at h
    by_cases hp : dotDotSlash.isPrefixOf rr = true
    · rw [if_pos hp] at h
      simp only [Option.some.injEq, Prod.mk.injEq] at h
      obtain ⟨hr, ht⟩ := h
      subst hr; subst ht
      obtain ⟨ws, q, hs, hg, -, -, -⟩ := matchLitFrom_some_shape hl
      subst hs; subst hg
      obtain ⟨tl, htl⟩ := List.isPrefixOf_iff_prefix.mp hp
      rw [← htl]
      rw [show (3 : Nat) = dotDotSlash.length from rfl, List.drop_left]
      simp [dotDotSlash, List.length_append]
      omega
    · rw [if_neg hp] at h
      exact absurd h (by simp)

lemma growing_mFixI1 : Growing mFixI1 := by
  intro s r t h
  unfold mFixI1 at h
  cases hl : matchLitImp s with
  | none => simp [hl] at h
  | some g1r =>
    obtain ⟨g1, rr⟩ := g1r
    simp only [hl] at h
    by_cases hp : dotDotSlash.isPrefixOf rr = true
    · rw [if_pos hp] at h
      simp only [Option.some.injEq, Prod.mk.injEq] at h
      obtain ⟨hr, ht⟩ := h
      subst hr; subst ht
      obtain ⟨q, hs, hg, -⟩ := matchLitImp_some_shape hl
      subst hs; subst hg
      obtain ⟨tl, htl⟩ := List.isPrefixOf_iff_prefix.mp hp
      rw [← htl]
      rw [show (3 : Nat) = dotDotSlash.length from rfl, List.drop_left]
      simp [dotDotSlash, List.length_append]
      omega
    · rw [if_neg hp] at h
      exact absurd h (by simp)

lemma growing_mFixF2 : Growing mFixF2 := by
  intro s r t h
  unfold mFixF2 at h
  cases hl : matchLitFrom s with
  | none => simp [hl] at h
  | some g1r =>
    obtain ⟨g1, rr⟩ := g1r
    simp only [hl] at h
    by_cases hp : dotSlash.isPrefixOf rr = true
    · rw [if_pos hp] at h
      cases hd : (rr.drop 2).dropWhile (fun c => !(isQuote c)) with
      | nil => rw [hd] at h; exact absurd h (by simp)
      | cons q rest2 =>
        rw [hd] at h
        simp only [] at h
        by_cases hb : (rr.drop 2).takeWhile (fun c => !(isQuote c)) = []
        · rw [if_pos hb] at h; exact absurd h (by simp)
        · rw [if_neg hb] at h
          simp only [Option.some.injEq, Prod.mk.injEq] at h
          obtain ⟨hr, ht⟩ := h
          subst hr; subst ht
          obtain ⟨ws, q', hs, hg, -, -, -⟩ := matchLitFrom_some_shape hl
          subst hs; subst hg
          obtain ⟨tl, htl⟩ := List.isPrefixOf_iff_prefix.mp hp
          have hdr : rr.drop 2 = tl := by
            rw [← htl, show (2 : Nat) = dotSlash.length from rfl, List.drop_left]
          rw [hdr] at hd hb ⊢
          have hsplit := List.takeWhile_append_dropWhile (fun c => !(isQuote c)) tl
          rw [hd] at hsplit
          have hlen := congrArg List.length hsplit
          simp only [List.length_append, List.length_cons] at hlen
          rw [← htl]
          simp [dotSlash, dotDotSlash, List.length_append]
          omega
    · rw [if_neg hp] at h
      exact absurd h (by simp)

lemma growing_mFixI2 : Growing mFixI2 := by
  intro s r t h
  unfold mFixI2 at h
  cases hl : matchLitImp s with
  | none => simp [hl] at h
  | some g1r =>
    obtain ⟨g1, rr⟩ := g1r
    simp only [hl] at h
    by_cases hp : dotSlash.isPrefixOf rr = true
    · rw [if_pos hp] at h
      cases hd : (rr.drop 2).dropWhile (fun c => !(isQuote c)) with
      | nil => rw [hd] at h; exact absurd h (by simp)
      | cons q rest2 =>
        rw [hd] at h
        simp only [] at h
        by_cases hb : (rr.drop 2).takeWhile (fun c => !(isQuote c)) = []
        · rw [if_pos hb] at h; exact absurd h (by simp)
        · rw [if_neg hb] at h
          simp only [Option.some.injEq, Prod.mk.injEq] at h
          obtain ⟨hr, ht⟩ := h
          subst hr; subst ht
          obtain ⟨q', hs, hg, -⟩ := matchLitImp_some_shape hl
          subst hs; subst hg
          obtain ⟨tl, htl⟩ := List.isPrefixOf_iff_prefix.mp hp
          have hdr : rr.drop 2 = tl := by
            rw [← htl, show (2 : Nat) = dotSlash.length from rfl, List.drop_left]
          rw [hdr] at hd hb ⊢
          have hsplit := List.takeWhile_append_dropWhile (fun c => !(isQuote c)) tl
          rw [hd] at hsplit
          have hlen := congrArg List.length hsplit
          simp only [List.length_append, List.length_cons] at hlen
          rw [← htl]
          simp [dotSlash, dotDotSlash, List.length_append]
          omega
    · rw [if_neg hp] at h
      exact absurd h (by simp)

/-- Whether any of fix-imports.py's four patterns matches somewhere in
the content, i.e. the content holds at least one in-scope specifier as
recognized by the respective pass. -/
def hasAnySpec (s : List Char) : Bool :=
  hasMatchB mFixF1 s || hasMatchB mFixF2 s || hasMatchB mFixI1 s || hasMatchB mFixI2 s

lemma nonshrinking_of_growing {m : Matcher} (hg : Growing m) : NonShrinking m :=
  fun s r t h => le_of_lt (hg s r t h)

lemma fix_imports_id_of_no_spec {s : List Char} (h : hasAnySpec s = false) :
    fix_imports_rewrite s = s := by
  simp only [hasAnySpec, Bool.or_eq_false_iff] at h
  obtain ⟨⟨⟨h1, h2⟩, h3⟩, h4⟩ := h
  unfold fix_imports_rewrite
  rw [gsub_id_of_not_hasMatch h1, gsub_id_of_not_hasMatch h2, gsub_id_of_not_hasMatch h3,
    gsub_id_of_not_hasMatch h4]

lemma fix_imports_len_of_spec {s : List Char} (h : hasAnySpec s = true) :
    s.length < (fix_imports_rewrite s).length := by
  have hge1 := gsub_length_ge consuming_mFixF1 (nonshrinking_of_growing growing_mFixF1)
  have hge2 := gsub_length_ge consuming_mFixF2 (nonshrinking_of_growing growing_mFixF2)
  have hge3 := gsub_length_ge consuming_mFixI1 (nonshrinking_of_growing growing_mFixI1)
  have hge4 := gsub_length_ge consuming_mFixI2 (nonshrinking_of_growing growing_mFixI2)
  unfold fix_imports_rewrite
  by_cases h1 : hasMatchB mFixF1 s = true
  · have a1 := gsub_length_gt_of_hasMatch consuming_mFixF1 growing_mFixF1 s h1
    have a2 := hge2 (gsub mFixF1 s)
    have a3 := hge3 (gsub mFixF2 (gsub mFixF1 s))
    have a4 := hge4 (gsub mFixI1 (gsub mFixF2 (gsub mFixF1 s)))
    omega
  · have e1 : gsub mFixF1 s = s :=
      gsub_id_of_not_hasMatch (Bool.not_eq_true _ ▸ eq_false_of_ne_true h1)
    rw [e1]
    by_cases h2 : hasMatchB mFixF2 s = true
    · have a2 := gsub_length_gt_of_hasMatch consuming_mFixF2 growing_mFixF2 s h2
      have a3 := hge3 (gsub mFixF2 s)
      have a4 := hge4 (gsub mFixI1 (gsub mFixF2 s))
      omega
    · have e2 : gsub mFixF2 s = s :=
        gsub_id_of_not_hasMatch (eq_false_of_ne_true h2)
      rw [e2]
      by_cases h3 : hasMatchB mFixI1 s = true
      · have a3 := gsub_length_gt_of_hasMatch consuming_mFixI1 growing_mFixI1 s h3
        have a4 := hge4 (gsub mFixI1 s)
        omega
      · have e3 : gsub mFixI1 s = s :=
          gsub_id_of_not_hasMatch (eq_false_of_ne_true h3)
        rw [e3]
        by_cases h4 : hasMatchB mFixI2 s = true
        · exact gsub_length_gt_of_hasMatch consuming_mFixI2 growing_mFixI2 s h4
        · exfalso
          simp only [hasAnySpec, Bool.or_eq_true] at h
          rcases h with ((hh | hh) | hh) | hh
          · exact h1 hh
          · exact h2 hh
          · exact h3 hh
          · exact h4 hh

/-!  ### The `changed` flag of fix-imports-smart.py -/

/-- The tail of fix-imports-smart.py's loop body: with `line` the
original line and `l1` the line after pattern 1, search pattern 2 on
`l1`, apply the `str.replace`, and record the `changed` checks — the
source compares the line against `original_line` after each matched
pattern. -/
def smart_fix_line_tail (line l1 : List Char) : List Char × Bool :=
  match searchImpSpec l1 with
  | some (g1, p, g3) =>
    (pyReplace l1 (g1 ++ p ++ g3) (g1 ++ add_one_level p ++ g3),
      decide (l1 ≠ line) ||
        decide (pyReplace l1 (g1 ++ p ++ g3) (g1 ++ add_one_level p ++ g3) ≠ line))
  | none => (l1, decide (l1 ≠ line))

/-- One full iteration of fix-imports-smart.py's per-line loop: the
rewritten line together with whether this line set the `changed` flag.
When pattern 1 does not match, the first check contributes
`line ≠ line`, i.e. nothing, exactly as in the source where `changed`
is only touched under `if match`. -/
def smart_fix_line_pair (line : List Char) : List Char × Bool :=
  match searchFromSpec line with
  | some (g1, p, g3) =>
    smart_fix_line_tail line
      (pyReplace line (g1 ++ p ++ g3) (g1 ++ add_one_level p ++ g3))
  | none => smart_fix_line_tail line line

/-- The `changed` result of fix-imports-smart.py's `fix_imports_in_file`:
true iff some line's checks fired. -/
def smart_fix_changed (s : List Char) : Bool :=
  ((pyReadLines s).map fun l => (smart_fix_line_pair l).2).any fun b => b

/-- fix-imports-smart.py writes the file back (and returns True) exactly
when `changed`. -/
def smart_fix_writes (s : List Char) : Bool := smart_fix_changed s

/-- Whether a matched path is in scope: it starts with `./` or `../`. -/
def smartInScopeB (p : List Char) : Bool :=
  dotSlash.isPrefixOf p || dotDotSlash.isPrefixOf p

/-- The content has zero in-scope specifiers for the smart script: on no
line does either search produce an in-scope path. -/
def smartNoInScope (s : List Char) : Bool :=
  (pyReadLines s).all fun line =>
    (match searchFromSpec line with
     | some (_, p, _) => !smartInScopeB p
     | none => true) &&
    (match searchImpSpec line with
     | some (_, p, _) => !smartInScopeB p
     | none => true)

lemma smart_fix_line_tail_none {line l1 : List Char} (h2 : searchImpSpec l1 = none) :
    smart_fix_line_tail line l1 = (l1, decide (l1 ≠ line)) := by
  unfold smart_fix_line_tail
  rw [h2]

lemma smart_fix_line_tail_some {line l1 a q c : List Char}
    (h2 : searchImpSpec l1 = some (a, q, c)) :
    smart_fix_line_tail line l1 =
      (pyReplace l1 (a ++ q ++ c) (a ++ add_one_level q ++ c),
        decide (l1 ≠ line) ||
          decide (pyReplace l1 (a ++ q ++ c) (a ++ add_one_level q ++ c) ≠ line)) := by
  unfold smart_fix_line_tail
  rw [h2]

lemma smart_fix_line_pair_none {line : List Char} (h1 : searchFromSpec line = none) :
    smart_fix_line_pair line = smart_fix_line_tail line line := by
  unfold smart_fix_line_pair
  rw [h1]

lemma smart_fix_line_pair_some {line g1 p g3 : List Char}
    (h1 : searchFromSpec line = some (g1, p, g3)) :
    smart_fix_line_pair line =
      smart_fix_line_tail line
        (pyReplace line (g1 ++ p ++ g3) (g1 ++ add_one_level p ++ g3)) := by
  unfold smart_fix_line_pair
  rw [h1]

lemma add_one_level_length_ge (p : List Char) : p.length ≤ (add_one_level p).length := by
  by_cases h1 : dotSlash.isPrefixOf p = true
  · obtain ⟨tl, htl⟩ := List.isPrefixOf_iff_prefix.mp h1
    rw [← htl, add_one_level_dotSlash]
    simp only [dotSlash, dotDotSlash, List.length_append, List.length_cons, List.length_nil]
    omega
  · by_cases h2 : dotDotSlash.isPrefixOf p = true
    · obtain ⟨tl, htl⟩ := List.isPrefixOf_iff_prefix.mp h2
      rw [← htl, add_one_level_dotDotSlash]
      simp only [dotDotSlash, List.length_append, List.length_cons, List.length_nil]
      omega
    · rw [add_one_level_of_not_relative p (eq_false_of_ne_true h1) (eq_false_of_ne_true h2)]

lemma add_one_level_length_gt {p : List Char} (h : add_one_level p ≠ p) :
    p.length < (add_one_level p).length := by
  by_cases h1 : dotSlash.isPrefixOf p = true
  · obtain ⟨tl, htl⟩ := List.isPrefixOf_iff_prefix.mp h1
    rw [← htl, add_one_level_dotSlash]
    simp only [dotSlash, dotDotSlash, List.length_append, List.length_cons, List.length_nil]
    omega
  · by_cases h2 : dotDotSlash.isPrefixOf p = true
    · obtain ⟨tl, htl⟩ := List.isPrefixOf_iff_prefix.mp h2
      rw [← htl, add_one_level_dotDotSlash]
      simp only [dotDotSlash, List.length_append, List.length_cons, List.length_nil]
      omega
    · exact absurd (add_one_level_of_not_relative p (eq_false_of_ne_true h1)
        (eq_false_of_ne_true h2)) h

lemma nonshrinking_mRepl {old new : List Char} (h : old.length ≤ new.length) :
    NonShrinking (mRepl old new) := by
  intro s r t hm
  unfold mRepl at hm
  by_cases hc : old ≠ [] ∧ old.isPrefixOf s = true
  · rw [if_pos hc] at hm
    simp only [Option.some.injEq, Prod.mk.injEq] at hm
    obtain ⟨hr, ht⟩ := hm
    subst hr
    subst ht
    obtain ⟨tl, htl⟩ := List.isPrefixOf_iff_prefix.mp hc.2
    rw [← htl]
    simp only [List.length_append, List.drop_left]
    omega
  · rw [if_neg hc] at hm
    exact absurd hm (by simp)

lemma growing_mRepl {old new : List Char} (h : old.length < new.length) :
    Growing (mRepl old new) := by
  intro s r t hm
  unfold mRepl at hm
  by_cases hc : old ≠ [] ∧ old.isPrefixOf s = true
  · rw [if_pos hc] at hm
    simp only [Option.some.injEq, Prod.mk.injEq] at hm
    obtain ⟨hr, ht⟩ := hm
    subst hr
    subst ht
    obtain ⟨tl, htl⟩ := List.isPrefixOf_iff_prefix.mp hc.2
    rw [← htl]
    simp only [List.length_append, List.drop_left]
    omega
  · rw [if_neg hc] at hm
    exact absurd hm (by simp)

lemma pyReplace_length_ge {old new : List Char} (h : old.length ≤ new.length)
    (s : List Char) : s.length ≤ (pyReplace s old new).length :=
  gsub_length_ge (consuming_mRepl old new) (nonshrinking_mRepl h) s

lemma pyReplace_length_gt {s old new : List Char} (h : old.length < new.length)
    (hne : pyReplace s old new ≠ s) : s.length < (pyReplace s old new).length := by
  by_cases hmb : hasMatchB (mRepl old new) s = true
  · exact gsub_length_gt_of_hasMatch (consuming_mRepl old new) (growing_mRepl h) s hmb
  · exact absurd (gsub_id_of_not_hasMatch (eq_false_of_ne_true hmb)) hne

lemma smart_repl_length_ge (line g1 p g3 : List Char) :
    line.length ≤ (pyReplace line (g1 ++ p ++ g3) (g1 ++ add_one_level p ++ g3)).length := by
  apply pyReplace_length_ge
  simp only [List.length_append]
  have := add_one_level_length_ge p
  omega

lemma smart_repl_ne_length {line g1 p g3 : List Char}
    (h : pyReplace line (g1 ++ p ++ g3) (g1 ++ add_one_level p ++ g3) ≠ line) :
    line.length < (pyReplace line (g1 ++ p ++ g3) (g1 ++ add_one_level p ++ g3)).length := by
  by_cases hadd : add_one_level p = p
  · rw [hadd] at h
    exact absurd (pyReplace_self line (g1 ++ p ++ g3)) h
  · apply pyReplace_length_gt
    · simp only [List.length_append]
      have := add_one_level_length_gt hadd
      omega
    · exact h

lemma smart_tail_fst_ge {line l1 : List Char} (hge : line.length ≤ l1.length) :
    line.length ≤ (smart_fix_line_tail line l1).1.length := by
  cases h2 : searchImpSpec l1 with
  | none =>
    rw [smart_fix_line_tail_none h2]
    exact hge
  | some v =>
    obtain ⟨a, q, c⟩ := v
    rw [smart_fix_line_tail_some h2]
    exact le_trans hge (smart_repl_length_ge l1 a q c)

lemma smart_tail_snd_false {line l1 : List Char}
    (h : (smart_fix_line_tail line l1).2 = false) :
    (smart_fix_line_tail line l1).1 = line := by
  cases h2 : searchImpSpec l1 with
  | none =>
    rw [smart_fix_line_tail_none h2] at h ⊢
    simpa using h
  | some v =>
    obtain ⟨a, q, c⟩ := v
    rw [smart_fix_line_tail_some h2] at h ⊢
    replace h : (decide (l1 ≠ line) ||
        decide (pyReplace l1 (a ++ q ++ c) (a ++ add_one_level q ++ c) ≠ line)) = false := h
    show pyReplace l1 (a ++ q ++ c) (a ++ add_one_level q ++ c) = line
    simp only [Bool.or_eq_false_iff, decide_eq_false_iff_not, not_not] at h
    exact h.2

lemma smart_tail_snd_true {line l1 : List Char} (hge : line.length ≤ l1.length)
    (hlt : l1 ≠ line → line.length < l1.length)
    (h : (smart_fix_line_tail line l1).2 = true) :
    line.length < (smart_fix_line_tail line l1).1.length := by
  cases h2 : searchImpSpec l1 with
  | none =>
    rw [smart_fix_line_tail_none h2] at h ⊢
    simp at h
    exact hlt h
  | some v =>
    obtain ⟨a, q, c⟩ := v
    rw [smart_fix_line_tail_some h2] at h ⊢
    simp only [Bool.or_eq_true, decide_eq_true_eq] at h
    show line.length < (pyReplace l1 (a ++ q ++ c) (a ++ add_one_level q ++ c)).length
    have hge2 := smart_repl_length_ge l1 a q c
    rcases h with h | h
    · have := hlt h
      omega
    · by_cases hl1 : l1 = line
      · subst hl1
        exact smart_repl_ne_length h
      · have := hlt hl1
        omega

lemma smart_pair_fst_ge (line : List Char) :
    line.length ≤ (smart_fix_line_pair line).1.length := by
  cases h1 : searchFromSpec line with
  | none =>
    rw [smart_fix_line_pair_none h1]
    exact smart_tail_fst_ge le_rfl
  | some v =>
    obtain ⟨g1, p, g3⟩ := v
    rw [smart_fix_line_pair_some h1]
    exact smart_tail_fst_ge (smart_repl_length_ge line g1 p g3)

lemma smart_pair_snd_false {line : List Char}
    (h : (smart_fix_line_pair line).2 = false) :
    (smart_fix_line_pair line).1 = line := by
  cases h1 : searchFromSpec line with
  | none =>
    rw [smart_fix_line_pair_none h1] at h ⊢
    exact smart_tail_snd_false h
  | some v =>
    obtain ⟨g1, p, g3⟩ := v
    rw [smart_fix_line_pair_some h1] at h ⊢
    exact smart_tail_snd_false h

lemma smart_pair_snd_true {line : List Char}
    (h : (smart_fix_line_pair line).2 = true) :
    line.length < (smart_fix_line_pair line).1.length := by
  cases h1 : searchFromSpec line with
  | none =>
    rw [smart_fix_line_pair_none h1] at h ⊢
    exact smart_tail_snd_true le_rfl (fun hh => absurd rfl hh) h
  | some v =>
    obtain ⟨g1, p, g3⟩ := v
    rw [smart_fix_line_pair_some h1] at h ⊢
    exact smart_tail_snd_true (smart_repl_length_ge line g1 p g3)
      (fun hh => smart_repl_ne_length hh) h

lemma smart_fix_line_pair_fst (line : List Char) :
    (smart_fix_line_pair line).1 = smart_fix_line line := by
  unfold smart_fix_line
  cases h1 : searchFromSpec line with
  | none =>
    rw [smart_fix_line_pair_none h1]
    simp only [h1]
    cases h2 : searchImpSpec line with
    | none =>
      rw [smart_fix_line_tail_none h2]
    | some v =>
      obtain ⟨a, q, c⟩ := v
      rw [smart_fix_line_tail_some h2]
  | some v =>
    obtain ⟨g1, p, g3⟩ := v
    rw [smart_fix_line_pair_some h1]
    simp only [h1]
    cases h2 : searchImpSpec
        (pyReplace line (g1 ++ p ++ g3) (g1 ++ add_one_level p ++ g3)) with
    | none =>
      rw [smart_fix_line_tail_none h2]
    | some v2 =>
      obtain ⟨a, q, c⟩ := v2
      rw [smart_fix_line_tail_some h2]

lemma smart_lines_len_ge (L : List (List Char)) :
    L.flatten.length ≤ ((L.map fun l => (smart_fix_line_pair l).1).flatten).length := by
  induction L with
  | nil => simp
  | cons l L ih =>
    simp only [List.map_cons, List.flatten_cons, List.length_append]
    have := smart_pair_fst_ge l
    omega

lemma smart_lines_len_gt {L : List (List Char)}
    (h : (L.map fun l => (smart_fix_line_pair l).2).any (fun b => b) = true) :
    L.flatten.length < ((L.map fun l => (smart_fix_line_pair l).1).flatten).length := by
  induction L with
  | nil => simp at h
  | cons l L ih =>
    simp only [List.map_cons, List.any_cons, Bool.or_eq_true] at h
    simp only [List.map_cons, List.flatten_cons, List.length_append]
    rcases h with h | h
    · have h1 := smart_pair_snd_true h
      have h2 := smart_lines_len_ge L
      omega
    · have h1 := smart_pair_fst_ge l
      have h2 := ih h
      omega

lemma smart_lines_all_id {L : List (List Char)}
    (hall : ∀ l ∈ L, (smart_fix_line_pair l).2 = false) :
    (L.map fun l => (smart_fix_line_pair l).1).flatten = L.flatten := by
  induction L with
  | nil => rfl
  | cons l L ih =>
    simp only [List.map_cons, List.flatten_cons]
    rw [smart_pair_snd_false (hall l (by simp)), ih (fun d hd => hall d (by simp [hd]))]

lemma pyReadLines_flatten (s : List Char) : (pyReadLines s).flatten = s := by
  induction s with
  | nil => rfl
  | cons c rest ih =>
    simp only [pyReadLines]
    by_cases hc : c = Char.ofNat 10
    · rw [if_pos hc]
      simp [ih]
    · rw [if_neg hc]
      cases hr : pyReadLines rest with
      | nil =>
        rw [hr] at ih
        simp only [List.flatten_nil] at ih
        simp [← ih]
      | cons l ls =>
        rw [hr] at ih
        simp only [List.flatten_cons] at ih
        simp [ih]

lemma smart_fix_content_eq (s : List Char) :
    smart_fix_content s =
      ((pyReadLines s).map fun l => (smart_fix_line_pair l).1).flatten := by
  unfold smart_fix_content
  congr 1
  exact List.map_congr_left fun l _ => (smart_fix_line_pair_fst l).symm

lemma smart_changed_iff (s : List Char) :
    smart_fix_changed s = true ↔ smart_fix_content s ≠ s := by
  constructor
  · intro h heq
    have hgt := smart_lines_len_gt h
    rw [← smart_fix_content_eq s, heq, pyReadLines_flatten] at hgt
    exact lt_irrefl _ hgt
  · intro hne
    by_cases h : smart_fix_changed s = true
    · exact h
    · exfalso
      apply hne
      have h' : smart_fix_changed s = false := eq_false_of_ne_true h
      unfold smart_fix_changed at h'
      rw [List.any_eq_false] at h'
      have hall : ∀ l ∈ pyReadLines s, (smart_fix_line_pair l).2 = false := by
        intro l hl
        have hb := h' _ (List.mem_map_of_mem _ hl)
        rcases Bool.eq_false_or_eq_true (smart_fix_line_pair l).2 with hb2 | hb2
        · exact absurd hb2 hb
        · exact hb2
      rw [smart_fix_content_eq, smart_lines_all_id hall, pyReadLines_flatten]

lemma smart_pair_of_out {line : List Char}
    (hf : (match searchFromSpec line with
           | some (_, p, _) => !smartInScopeB p
           | none => true) = true)
    (hi : (match searchImpSpec line with
           | some (_, p, _) => !smartInScopeB p
           | none => true) = true) :
    smart_fix_line_pair line = (line, false) := by
  have hadd : ∀ q : List Char, smartInScopeB q = false → add_one_level q = q := by
    intro q hq
    simp only [smartInScopeB, Bool.or_eq_false_iff] at hq
    exact add_one_level_of_not_relative q hq.1 hq.2
  cases h1 : searchFromSpec line with
  | none =>
    rw [smart_fix_line_pair_none h1]
    cases h2 : searchImpSpec line with
    | none =>
      rw [smart_fix_line_tail_none h2]
      simp
    | some v =>
      obtain ⟨a, q, c⟩ := v
      simp only [h2, Bool.not_eq_true'] at hi
      rw [smart_fix_line_tail_some h2, hadd q hi, pyReplace_self]
      simp
  | some v =>
    obtain ⟨g1, p, g3⟩ := v
    simp only [h1, Bool.not_eq_true'] at hf
    have hl1 : pyReplace line (g1 ++ p ++ g3) (g1 ++ add_one_level p ++ g3) = line := by
      rw [hadd p hf]
      exact pyReplace_self line (g1 ++ p ++ g3)
    rw [smart_fix_line_pair_some h1, hl1]
    cases h2 : searchImpSpec line with
    | none =>
      rw [smart_fix_line_tail_none h2]
      simp
    | some v2 =>
      obtain ⟨a, q, c⟩ := v2
      simp only [h2, Bool.not_eq_true'] at hi
      rw [smart_fix_line_tail_some h2, hadd q hi, pyReplace_self]
      simp

lemma smartNoInScope_all {s : List Char} (h : smartNoInScope s = true) :
    ∀ l ∈ pyReadLines s, smart_fix_line_pair l = (l, false) := by
  intro l hl
  unfold smartNoInScope at h
  rw [List.all_eq_true] at h
  have h2 := h l hl
  rw [Bool.and_eq_true] at h2
  exact smart_pair_of_out h2.1 h2.2

/-- C8.  Both rewriters report `changed = true` exactly when some
specifier adjustment altered the content.  fix-imports.py: `changed`
holds iff the four substitutions alter the content, iff one of the
patterns matches somewhere (every match strictly lengthens the text),
and on a content with zero in-scope specifiers the content is returned
byte-identical, `changed` is false and no write occurs.
fix-imports-smart.py: its per-line `changed` bookkeeping holds iff the
rewritten content differs from the original (each successful adjustment
strictly lengthens its line), and when no line's searches produce an
in-scope path the content is returned byte-identical, `changed` is
false and no write occurs. -/
theorem c8_changed_iff (s : List Char) :
    (fix_imports_changed s = true ↔ fix_imports_rewrite s ≠ s) ∧
    (hasAnySpec s = true ↔ fix_imports_rewrite s ≠ s) ∧
    (hasAnySpec s = false →
      fix_imports_rewrite s = s ∧ fix_imports_changed s = false ∧
      fix_imports_writes s = false) ∧
    (smart_fix_changed s = true ↔ smart_fix_content s ≠ s) ∧
    (smartNoInScope s = true →
      smart_fix_content s = s ∧ smart_fix_changed s = false ∧
      smart_fix_writes s = false) := by
  have hiff : hasAnySpec s = true ↔ fix_imports_rewrite s ≠ s := by
    constructor
    · intro h heq
      have := fix_imports_len_of_spec h
      rw [heq] at this
      omega
    · intro hne
      by_cases h : hasAnySpec s = true
      · exact h
      · exact absurd (fix_imports_id_of_no_spec (eq_false_of_ne_true h)) hne
  refine ⟨by simp [fix_imports_changed], hiff, fun h => ?_, smart_changed_iff s,
    fun h => ?_⟩
  · have hid := fix_imports_id_of_no_spec h
    exact ⟨hid, by simp [fix_imports_changed, hid], by simp [fix_imports_writes,
      fix_imports_changed, hid]⟩
  · have hall := smartNoInScope_all h
    have hsnd : ∀ l ∈ pyReadLines s, (smart_fix_line_pair l).2 = false := by
      intro l hl
      rw [hall l hl]
    have hcontent : smart_fix_content s = s := by
      rw [smart_fix_content_eq, smart_lines_all_id hsnd, pyReadLines_flatten]
    have hch : smart_fix_changed s = false := by
      rcases Bool.eq_false_or_eq_true (smart_fix_changed s) with hb | hb
      · exact absurd hcontent ((smart_changed_iff s).mp hb)
      · exact hb
    exact ⟨hcontent, hch, hch⟩

/-- Witness for C8: a content with no specifier is unchanged and not
written, by either script. -/
theorem c8_changed_iff_witness :
    (fix_imports_rewrite ['l', 'e', 't', ' ', 'x'] = ['l', 'e', 't', ' ', 'x'] ∧
     fix_imports_changed ['l', 'e', 't', ' ', 'x'] = false ∧
     fix_imports_writes ['l', 'e', 't', ' ', 'x'] = false) ∧
    (smart_fix_content ['l', 'e', 't', ' ', 'x'] = ['l', 'e', 't', ' ', 'x'] ∧
     smart_fix_changed ['l', 'e', 't', ' ', 'x'] = false ∧
     smart_fix_writes ['l', 'e', 't', ' ', 'x'] = false) :=
  ⟨(c8_changed_iff ['l', 'e', 't', ' ', 'x']).2.2.1 (by decide),
   (c8_changed_iff ['l', 'e', 't', ' ', 'x']).2.2.2.2 (by decide)⟩

/-!  ## Out-of-scope specifiers are never modified (claim C9) -/

lemma matchSpecBody_none_not_rel {c0 : Char} {r2 : List Char} (hc : ¬(c0 = '.' ∨ c0 = '/')) :
    matchSpecBody (c0 :: r2) = none := by
  have heq : matchSpecBody (c0 :: r2) =
      if c0 = '.' ∨ c0 = '/' then
        match r2.dropWhile (fun c => !(isQuote c)) with
        | q2 :: rest =>
          if r2.takeWhile (fun c => !(isQuote c)) = [] then none
          else some (c0 :: r2.takeWhile (fun c => !(isQuote c)), [q2], rest)
        | [] => none
      else none := rfl
  rw [heq, if_neg hc]

lemma matchSpecBody_none_single {c0 : Char} {post : List Char} :
    matchSpecBody (c0 :: sqC :: post) = none := by
  have heq : matchSpecBody (c0 :: sqC :: post) =
      if c0 = '.' ∨ c0 = '/' then
        match (sqC :: post).dropWhile (fun c => !(isQuote c)) with
        | q2 :: rest =>
          if (sqC :: post).takeWhile (fun c => !(isQuote c)) = [] then none
          else some (c0 :: (sqC :: post).takeWhile (fun c => !(isQuote c)), [q2], rest)
        | [] => none
      else none := rfl
  rw [heq]
  by_cases hc : c0 = '.' ∨ c0 = '/'
  · rw [if_pos hc]
    simp [List.dropWhile_cons, List.takeWhile_cons, isQuote_sqC]
  · rw [if_neg hc]

lemma fixImports_fromContent_out {pre post p : List Char}
    (hpre : InertText pre) (hpost : InertText post) (hp : CleanPath p)
    (h1 : dotSlash.isPrefixOf p = false) (h2 : dotDotSlash.isPrefixOf p = false) :
    fix_imports_rewrite (pre ++ fromSpec p ++ post) = pre ++ fromSpec p ++ post := by
  have hpreF : ∀ c ∈ pre, c ≠ 'f' := fun c hc => (hpre c hc).1
  have hpreI : ∀ c ∈ pre, c ≠ 'i' := fun c hc => (hpre c hc).2
  have hpostF : ∀ c ∈ post, c ≠ 'f' := fun c hc => (hpost c hc).1
  have hpostI : ∀ c ∈ post, c ≠ 'i' := fun c hc => (hpost c hc).2
  rw [fromSpec_assoc]
  have hA : gsub mFixF1 (pre ++ (fromQ ++ (p ++ sqC :: post))) =
      pre ++ (fromQ ++ (p ++ sqC :: post)) := by
    rw [gsub_append_skip (fun c hc t => mFixF1_of_lit (matchLitFrom_none_of_head (hpreF c hc)))]
    rw [gsub_from_spec_id (fun s hs => mFixF1_of_lit hs) (mFixF1_at_no_dd h2)
      (fun c hc => (hp c hc).1) hpostF]
  have hB : gsub mFixF2 (pre ++ (fromQ ++ (p ++ sqC :: post))) =
      pre ++ (fromQ ++ (p ++ sqC :: post)) := by
    rw [gsub_append_skip (fun c hc t => mFixF2_of_lit (matchLitFrom_none_of_head (hpreF c hc)))]
    rw [gsub_from_spec_id (fun s hs => mFixF2_of_lit hs) (mFixF2_at_no_ds h1)
      (fun c hc => (hp c hc).1) hpostF]
  have hC : gsub mFixI1 (pre ++ (fromQ ++ (p ++ sqC :: post))) =
      pre ++ (fromQ ++ (p ++ sqC :: post)) :=
    gsub_imp_id_on_fromContent (fun s hs => mFixI1_of_lit hs) hpreI
      (fun c hc => (hp c hc).2.2) hpostI
  have hD : gsub mFixI2 (pre ++ (fromQ ++ (p ++ sqC :: post))) =
      pre ++ (fromQ ++ (p ++ sqC :: post)) :=
    gsub_imp_id_on_fromContent (fun s hs => mFixI2_of_lit hs) hpreI
      (fun c hc => (hp c hc).2.2) hpostI
  show gsub mFixI2 (gsub mFixI1 (gsub mFixF2 (gsub mFixF1 _))) = _
  rw [hA, hB, hC, hD]

lemma refactor_fromContent_out {pre post p : List Char}
    (hpre : InertText pre) (hpost : InertText post) (hp : CleanPath p) (hne : p ≠ [])
    (h1 : dotSlash.isPrefixOf p = false) (h2 : dotDotSlash.isPrefixOf p = false) :
    fix_imports_in_content (pre ++ fromSpec p ++ post) = pre ++ fromSpec p ++ post := by
  have hpreF : ∀ c ∈ pre, c ≠ 'f' := fun c hc => (hpre c hc).1
  have hpreI : ∀ c ∈ pre, c ≠ 'i' := fun c hc => (hpre c hc).2
  have hpostF : ∀ c ∈ post, c ≠ 'f' := fun c hc => (hpost c hc).1
  have hpostI : ∀ c ∈ post, c ≠ 'i' := fun c hc => (hpost c hc).2
  rw [fromSpec_assoc]
  obtain ⟨c0, p1, rfl⟩ : ∃ c0 p1, p = c0 :: p1 := by
    rcases p with _ | ⟨c0, p1⟩
    · exact absurd rfl hne
    · exact ⟨c0, p1, rfl⟩
  have hF : gsub mFromSpec (pre ++ (fromQ ++ ((c0 :: p1) ++ sqC :: post))) =
      pre ++ (fromQ ++ ((c0 :: p1) ++ sqC :: post)) := by
    rw [gsub_append_skip (fun c hc t => mFromSpec_of_lit (matchLitFrom_none_of_head (hpreF c hc)))]
    by_cases hc0 : c0 = '.' ∨ c0 = '/'
    · by_cases hp1 : p1 = []
      · subst hp1
        rw [gsub_from_spec_id (fun s hs => mFromSpec_of_lit hs)
          (mFromSpec_at_bad
            (show matchSpecBody ((c0 :: []) ++ sqC :: post) = none from matchSpecBody_none_single))
          (fun c hc => (hp c hc).1) hpostF]
      · rw [gsub_cons_some' consuming_mFromSpec
          (mFromSpec_at_spec hc0 (fun c hc => (hp c (by simp [hc])).2.1) hp1)
          (by simp [fromQ])]
        rw [gsub_id_of_no_head
          (fun c hc t => mFromSpec_of_lit (matchLitFrom_none_of_head (hpostF c hc)))]
        rw [fix_import_statement_out_of_scope h1 h2]
        simp [List.append_assoc]
    · rw [gsub_from_spec_id (fun s hs => mFromSpec_of_lit hs)
        (mFromSpec_at_bad (matchSpecBody_none_not_rel (by
          intro hcc
          exact hc0 (by
            rcases hcc with h | h
            · exact Or.inl h
            · exact Or.inr h))))
        (fun c hc => (hp c hc).1) hpostF]
  have hI : gsub mImpSpec (pre ++ (fromQ ++ ((c0 :: p1) ++ sqC :: post))) =
      pre ++ (fromQ ++ ((c0 :: p1) ++ sqC :: post)) :=
    gsub_imp_id_on_fromContent (fun s hs => mImpSpec_of_lit hs) hpreI
      (fun c hc => (hp c hc).2.2) hpostI
  show gsub mImpSpec (gsub mFromSpec _) = _
  rw [hF, hI]

lemma searchFromSpec_cons (c : Char) (rest : List Char) :
    searchFromSpec (c :: rest) =
      match matchLitFrom (c :: rest) with
      | some (g1, r) =>
        match matchSpecBody r with
        | some (p, g3, _) => some (g1, p, g3)
        | none => searchFromSpec rest
      | none => searchFromSpec rest := rfl

lemma searchFromSpec_at_bad {p post : List Char}
    (hb : matchSpecBody (p ++ sqC :: post) = none)
    (hp : ∀ c ∈ p, pyWS c = false) (hpost : ∀ c ∈ post, c ≠ 'f') :
    searchFromSpec (fromQ ++ (p ++ sqC :: post)) = none := by
  have hsh : fromQ ++ (p ++ sqC :: post) =
      'f' :: (['r', 'o', 'm', ' ', sqC] ++ (p ++ sqC :: post)) := by simp [fromQ]
  rw [hsh, searchFromSpec_cons]
  rw [show ('f' :: (['r', 'o', 'm', ' ', sqC] ++ (p ++ sqC :: post))) =
    fromQ ++ (p ++ sqC :: post) from by simp [fromQ]]
  simp only [matchLitFrom_fromQ, hb]
  rw [searchFromSpec_skip (by
    intro c hc
    simp only [List.mem_cons, List.not_mem_nil, or_false] at hc
    rcases hc with h | h | h | h | h <;> subst h <;> decide)]
  exact searchFromSpec_none_mixed hp hpost

lemma searchImpSpec_none_fromContent {pre p post : List Char}
    (hpreI : ∀ c ∈ pre, c ≠ 'i') (hpP : ∀ c ∈ p, c ≠ '(')
    (hpostI : ∀ c ∈ post, c ≠ 'i') :
    searchImpSpec (pre ++ (fromQ ++ (p ++ sqC :: post))) = none := by
  rw [show pre ++ (fromQ ++ (p ++ sqC :: post)) =
    (pre ++ ['f', 'r', 'o', 'm', ' ']) ++ sqC :: (p ++ sqC :: post) from by simp [fromQ]]
  rw [searchImpSpec_skip (by
    intro c hc
    rcases List.mem_append.mp hc with h | h
    · exact hpreI c h
    · simp only [List.mem_cons, List.not_mem_nil, or_false] at h
      rcases h with h | h | h | h | h <;> subst h <;> decide)]
  simp only [searchImpSpec, matchLitImp_none_of_head (show sqC ≠ 'i' by decide)]
  exact searchImpSpec_none_mixed hpP hpostI

lemma smart_line_fromContent_out {pre post p : List Char}
    (hpre : InertText pre) (hpost : InertText post) (hp : CleanPath p) (hne : p ≠ [])
    (h1 : dotSlash.isPrefixOf p = false) (h2 : dotDotSlash.isPrefixOf p = false) :
    smart_fix_line (pre ++ fromSpec p ++ post) = pre ++ fromSpec p ++ post := by
  have hpreF : ∀ c ∈ pre, c ≠ 'f' := fun c hc => (hpre c hc).1
  have hpreI : ∀ c ∈ pre, c ≠ 'i' := fun c hc => (hpre c hc).2
  have hpostF : ∀ c ∈ post, c ≠ 'f' := fun c hc => (hpost c hc).1
  have hpostI : ∀ c ∈ post, c ≠ 'i' := fun c hc => (hpost c hc).2
  obtain ⟨c0, p1, rfl⟩ : ∃ c0 p1, p = c0 :: p1 := by
    rcases p with _ | ⟨c0, p1⟩
    · exact absurd rfl hne
    · exact ⟨c0, p1, rfl⟩
  have hsearch2 : searchImpSpec (pre ++ fromSpec (c0 :: p1) ++ post) = none := by
    rw [fromSpec_assoc]
    exact searchImpSpec_none_fromContent hpreI (fun c hc => (hp c hc).2.2) hpostI
  by_cases hc0 : c0 = '.' ∨ c0 = '/'
  · by_cases hp1 : p1 = []
    · subst hp1
      have hsearch : searchFromSpec (pre ++ fromSpec [c0] ++ post) = none := by
        rw [fromSpec_assoc, searchFromSpec_skip hpreF]
        exact searchFromSpec_at_bad
          (show matchSpecBody ((c0 :: []) ++ sqC :: post) = none from matchSpecBody_none_single)
          (fun c hc => (hp c hc).1) hpostF
      unfold smart_fix_line
      simp only [hsearch, hsearch2]
    · have hsearch : searchFromSpec (pre ++ fromSpec (c0 :: p1) ++ post) =
          some (fromQ, c0 :: p1, [sqC]) := by
        rw [fromSpec_assoc, searchFromSpec_skip hpreF,
          searchFromSpec_at_spec hc0 (fun c hc => (hp c (by simp [hc])).2.1) hp1]
      have hadd : add_one_level (c0 :: p1) = c0 :: p1 :=
        add_one_level_of_not_relative _ h1 h2
      unfold smart_fix_line
      simp only [hsearch, hadd, pyReplace_self, hsearch2]
  · have hsearch : searchFromSpec (pre ++ fromSpec (c0 :: p1) ++ post) = none := by
      rw [fromSpec_assoc, searchFromSpec_skip hpreF]
      exact searchFromSpec_at_bad (matchSpecBody_none_not_rel hc0)
        (fun c hc => (hp c hc).1) hpostF
    unfold smart_fix_line
    simp only [hsearch, hsearch2]

/-- C9: out-of-scope specifiers (bare package names such as `react`,
absolute paths such as `/abs/x`, dotted names such as `.env` — any path
beginning with neither `./` nor `../`) are left byte-identical by every
rewrite, regardless of delta. The two +1 path adjusters and refactor's
`fix_import_statement` return the path unchanged; on a canonical content
holding one such static specifier, fix-imports.py's four passes, refactor's
`fix_imports_in_content`, the smart script's per-line rewrite, and the −1
overcorrection repair are all the identity; fix-imports.py reports
`changed = false` and performs no write. -/
theorem c9_out_of_scope_untouched (pre post p : List Char)
    (hpre : InertText pre) (hpost : InertText post)
    (hprenl : ∀ c ∈ pre, c ≠ Char.ofNat 10) (hpostnl : ∀ c ∈ post, c ≠ Char.ofNat 10)
    (hp : CleanPath p) (hne : p ≠ [])
    (h1 : dotSlash.isPrefixOf p = false) (h2 : dotDotSlash.isPrefixOf p = false) :
    add_one_level p = p ∧
    add_one_level_to_path p = p ∧
    fix_import_statement fromQ p [sqC] = fromQ ++ p ++ [sqC] ∧
    fix_imports_rewrite (pre ++ fromSpec p ++ post) = pre ++ fromSpec p ++ post ∧
    fix_imports_changed (pre ++ fromSpec p ++ post) = false ∧
    fix_imports_writes (pre ++ fromSpec p ++ post) = false ∧
    fix_imports_in_content (pre ++ fromSpec p ++ post) = pre ++ fromSpec p ++ post ∧
    smart_fix_content (pre ++ fromSpec p ++ post) = pre ++ fromSpec p ++ post ∧
    fix_overcorrection_rewrite (pre ++ fromSpec p ++ post) =
      pre ++ fromSpec p ++ post := by
  have hfix := fixImports_fromContent_out hpre hpost hp h1 h2
  have hch : fix_imports_changed (pre ++ fromSpec p ++ post) = false := by
    unfold fix_imports_changed
    rw [hfix]
    simp
  refine ⟨add_one_level_of_not_relative p h1 h2, ?_,
    fix_import_statement_out_of_scope h1 h2, hfix, hch, hch, ?_, ?_, ?_⟩
  · simp [add_one_level_to_path, h1, h2]
  · exact refactor_fromContent_out hpre hpost hp hne h1 h2
  · rw [smart_content_single canonical_ne_nil
      (no_newline_of_canonical hprenl hpostnl hp)]
    exact smart_line_fromContent_out hpre hpost hp hne h1 h2
  · exact over_fromContent_nodd hpre hpost hp h2

/-- Witness for C9 at the bare package specifier `react` with empty
surrounding text. -/
theorem c9_out_of_scope_untouched_witness :
    add_one_level ['r', 'e', 'a', 'c', 't'] = ['r', 'e', 'a', 'c', 't'] ∧
    add_one_level_to_path ['r', 'e', 'a', 'c', 't'] = ['r', 'e', 'a', 'c', 't'] ∧
    fix_import_statement fromQ ['r', 'e', 'a', 'c', 't'] [sqC] =
      fromQ ++ ['r', 'e', 'a', 'c', 't'] ++ [sqC] ∧
    fix_imports_rewrite ([] ++ fromSpec ['r', 'e', 'a', 'c', 't'] ++ []) =
      [] ++ fromSpec ['r', 'e', 'a', 'c', 't'] ++ [] ∧
    fix_imports_changed ([] ++ fromSpec ['r', 'e', 'a', 'c', 't'] ++ []) = false ∧
    fix_imports_writes ([] ++ fromSpec ['r', 'e', 'a', 'c', 't'] ++ []) = false ∧
    fix_imports_in_content ([] ++ fromSpec ['r', 'e', 'a', 'c', 't'] ++ []) =
      [] ++ fromSpec ['r', 'e', 'a', 'c', 't'] ++ [] ∧
    smart_fix_content ([] ++ fromSpec ['r', 'e', 'a', 'c', 't'] ++ []) =
      [] ++ fromSpec ['r', 'e', 'a', 'c', 't'] ++ [] ∧
    fix_overcorrection_rewrite ([] ++ fromSpec ['r', 'e', 'a', 'c', 't'] ++ []) =
      [] ++ fromSpec ['r', 'e', 'a', 'c', 't'] ++ [] :=
  c9_out_of_scope_untouched [] [] ['r', 'e', 'a', 'c', 't']
    (fun c hc => absurd hc (List.not_mem_nil c))
    (fun c hc => absurd hc (List.not_mem_nil c))
    (fun c hc => absurd hc (List.not_mem_nil c))
    (fun c hc => absurd hc (List.not_mem_nil c))
    (by
      intro c hc
      simp only [List.mem_cons, List.not_mem_nil, or_false] at hc
      rcases hc with h | h | h | h | h <;> subst h <;>
        exact ⟨by decide, by decide, by decide⟩)
    (by decide) (by decide) (by decide)
